import Mathlib

/-!
Verification development for the cland scheduling core
(`generatePlan` and its helpers, plus the time utilities it imports).

Embedding conventions:
* Timestamps are integers counting minutes since an arbitrary epoch; a calendar
  day is the uniform block of 1440 minutes (a fixed-offset timezone, no DST).
  The JS code works in milliseconds and rounds to minutes via `minutesBetween`;
  on minute-aligned inputs the two agree, so minutes are the unit here.
* `HH:MM` time-of-day strings (work day, lunch, preferred windows) are embedded
  as their value in minutes after midnight.
* The day-key strings `YYYY-MM-DD` are embedded as the integer day index
  `t.ediv 1440`, which is injective on days exactly like the source keys.
* JS `Map`/`Record` accumulators keyed by day or task id are embedded as total
  functions with default value (`?? 0` / `?? []` in the source).
* Floating-point confidence scores are embedded as exact rationals; no claim
  depends on them.
* The wall clock `new Date()` read once at the start of `generatePlan` is an
  explicit `now` argument, and `generatedAt` is that same instant.
* `Array.prototype.sort` (stable since ES2019) is embedded as Mathlib's
  `List.insertionSort`, which is a stable sort; `localeCompare` on titles is
  embedded as Lean's lexicographic `String` order.
* The inner `while (remaining > 0)` placement loop is embedded with a fuel
  parameter set to `remaining + 1`, which is enough fuel whenever
  `minBlock ≥ 1` (each placed block consumes at least `minBlock` minutes;
  the source loop does not terminate when `minBlock ≤ 0` and the daily cap
  is already exceeded, which the data-model invariant `minBlockMinutes ≥ 30`
  rules out).
* Fields of no behavioural significance to the scheduler (`description`,
  `energyLevel`, `assumptions` on tasks, `timezone` display use) are carried
  or omitted as noted on each structure.
-/

namespace Cland

/-- Half-open time interval, `start` inclusive, `end` exclusive
(source: `type Interval` in the planner). -/
structure Interval where
  start : Int
  «end» : Int
deriving DecidableEq, Repr

/-- Source: `createInterval` — `null` when `end <= start`. -/
def createInterval (start «end» : Int) : Option Interval :=
  if «end» ≤ start then none else some ⟨start, «end»⟩

/-- Source: `overlaps` — strict half-open overlap test. -/
def overlaps (a b : Interval) : Bool :=
  decide (a.start < b.«end») && decide (b.start < a.«end»)

/-- Source: `subtractInterval` — 0, 1 or 2 pieces of `base` after removing `cut`. -/
def subtractInterval (base cut : Interval) : List Interval :=
  if overlaps base cut = false then [base]
  else
    (if base.start < cut.start then [({ start := base.start, «end» := cut.start } : Interval)] else [])
      ++ (if cut.«end» < base.«end» then [({ start := cut.«end», «end» := base.«end» } : Interval)] else [])

/-- Source: `subtractIntervals` — fold every cut over every current base. -/
def subtractIntervals (bases cuts : List Interval) : List Interval :=
  cuts.foldl (fun current cut => current.flatMap (fun base => subtractInterval base cut)) bases

/-- Source: `startOfDay` (midnight of the local calendar day). -/
def startOfDay (t : Int) : Int := 1440 * (t / 1440)

/-- Source: `addDays` (the planner only ever adds nonnegative day offsets). -/
def addDays (t : Int) (days : Nat) : Int := t + 1440 * (days : Int)

/-- Source: `minutesBetween` — clamped at zero. -/
def minutesBetween (s e : Int) : Int := max 0 (e - s)

/-- Source: `combineDateAndTime` — the date's calendar day plus an `HH:MM` offset. -/
def combineDateAndTime (date time : Int) : Int := startOfDay date + time

/-- Source: `dayKey` — embeds the `YYYY-MM-DD` key as the integer day index. -/
def dayKey (t : Int) : Int := t / 1440

/-- Source: `weekDayShort` — day-of-week name; day index 0 of this epoch is a Thursday
(as for the Unix epoch). -/
def weekDayShort (t : Int) : String :=
  (["Thu", "Fri", "Sat", "Sun", "Mon", "Tue", "Wed"].getD ((dayKey t) % 7).toNat "Thu")

/-- Source: `PreferredTimeWindow` (`start`/`end` are `HH:MM` strings, embedded as minutes). -/
structure PreferredTimeWindow where
  days : List String
  start : Int
  «end» : Int
deriving DecidableEq, Repr

/-- Source: `type Task`. `description`, `energyLevel` and `assumptions` are free-text
fields never read by the scheduler and are omitted. -/
structure Task where
  id : String
  title : String
  estimatedMinutes : Int
  completedMinutes : Option Int := none
  deadline : Option Int := none
  earliestStart : Option Int := none
  priority : Int
  interruptible : Bool
  minBlockMinutes : Int
  maxBlockMinutes : Option Int := none
  dependencies : Option (List String) := none
  preferredTimeWindows : Option (List PreferredTimeWindow) := none
deriving DecidableEq, Repr

/-- Source: `type CalendarEvent`. -/
structure CalendarEvent where
  id : String
  title : String
  start : Int
  «end» : Int
  busy : Bool
deriving DecidableEq, Repr

/-- Source: `type PlannedBlock` (`confidence` embedded as an exact rational). -/
structure PlannedBlock where
  id : String
  taskId : String
  start : Int
  «end» : Int
  confidence : ℚ
  reasonCodes : List String
  locked : Option Bool := none
deriving DecidableEq, Repr

/-- Source: `type PlanWarning`. -/
structure PlanWarning where
  code : String
  message : String
  taskId : Option String := none
deriving DecidableEq, Repr

/-- Source: `type PlanResult` (`generatedAt` is the run's `now` instant). -/
structure PlanResult where
  blocks : List PlannedBlock
  warnings : List PlanWarning
  assumptions : List String
  generatedAt : Int
deriving DecidableEq, Repr

/-- Source: `type Settings` (`timezone` is display-only and omitted; the four
time-of-day fields are `HH:MM` strings embedded as minutes after midnight). -/
structure Settings where
  planningHorizonDays : Int
  workDayStart : Int
  workDayEnd : Int
  lunchStart : Int
  lunchEnd : Int
  maxDailyMinutes : Int
deriving DecidableEq, Repr

/-- The interval spanned by a planned block (built inline in the source). -/
def blockInterval (b : PlannedBlock) : Interval := ⟨b.start, b.«end»⟩

/-- The interval spanned by a calendar event (built inline in the source). -/
def eventInterval (e : CalendarEvent) : Interval := ⟨e.start, e.«end»⟩

/-- Pointwise update of a keyed accumulator (JS `map.set` / record assignment). -/
def setVal {κ α : Type} [DecidableEq κ] (m : κ → α) (k : κ) (v : α) : κ → α :=
  fun x => if x = k then v else m x

/-- Order used to sort free slots (source: `sortByStart` comparator). -/
def intervalLE (a b : Interval) : Prop := a.start ≤ b.start

instance : DecidableRel intervalLE := fun a b => by
  unfold intervalLE; infer_instance

/-- Source: `buildFreeSlots` — per-day free intervals inside working hours after
removing lunch and all busy intervals (busy events and locked blocks), clipped
to the day. -/
def buildFreeSlots (startDay : Int) (settings : Settings) (events : List CalendarEvent)
    (lockedBlocks : List PlannedBlock) : Int → List Interval :=
  let busyIntervals :=
    (events.filter (fun e => e.busy)).map eventInterval ++ lockedBlocks.map blockInterval
  (List.range settings.planningHorizonDays.toNat).foldl
    (fun slotsByDay offset =>
      let day := addDays startDay offset
      let dayStart := combineDateAndTime day settings.workDayStart
      let dayEnd := combineDateAndTime day settings.workDayEnd
      match createInterval dayStart dayEnd with
      | none => setVal slotsByDay (dayKey day) []
      | some workingInterval =>
        let lunchCuts :=
          (createInterval (combineDateAndTime day settings.lunchStart)
            (combineDateAndTime day settings.lunchEnd)).toList
        let cuts := lunchCuts ++ busyIntervals.filterMap (fun busy =>
          let cutStart := if busy.start < dayStart then dayStart else busy.start
          let cutEnd := if dayEnd < busy.«end» then dayEnd else busy.«end»
          createInterval cutStart cutEnd)
        let free := List.insertionSort intervalLE (subtractIntervals [workingInterval] cuts)
        setVal slotsByDay (dayKey day) free)
    (fun _ => [])

/-- Source: `isPreferredWindow`. -/
def isPreferredWindow (task : Task) (t : Int) : Bool :=
  match task.preferredTimeWindows with
  | none => false
  | some ws =>
    if ws.isEmpty then false
    else
      let day := weekDayShort t
      let minutes := t % 1440
      ws.any (fun w =>
        if w.days.contains day = false then false
        else decide (w.start ≤ minutes) && decide (minutes < w.«end»))

/-- Source: `confidenceForBlock` — base 0.6, bonuses, clamped to [0.2, 0.95]. -/
def confidenceForBlock (preferred nearDeadline firstBlock : Bool) : ℚ :=
  let score := (6 : ℚ) / 10 + (if preferred then (2 : ℚ) / 10 else 0)
    + (if nearDeadline then (1 : ℚ) / 10 else 0) + (if firstBlock then (5 : ℚ) / 100 else 0)
  min ((95 : ℚ) / 100) (max ((2 : ℚ) / 10) score)

/-- Source: `deadlineIsNear` — within 48 hours before the deadline. -/
def deadlineIsNear (deadline : Option Int) (t : Int) : Bool :=
  match deadline with
  | none => false
  | some d => decide (d - t ≤ 48 * 60) && decide (0 ≤ d - t)

/-- Source: `taskSort` comparator, as the relation `taskSort(a, b) ≤ 0`:
deadline ascending (missing deadline sorts last), then priority descending,
then title (`localeCompare` embedded as the lexicographic string order). -/
def taskLE (a b : Task) : Bool :=
  let tie : Bool :=
    if a.priority = b.priority then decide (a.title ≤ b.title)
    else decide (b.priority < a.priority)
  match a.deadline, b.deadline with
  | some x, some y => if x = y then tie else decide (x < y)
  | some _, none => true
  | none, some _ => false
  | none, none => tie

/-- `taskLE` as a relation, for the stable sort. -/
def taskOrder (a b : Task) : Prop := taskLE a b = true

instance : DecidableRel taskOrder := fun a b => by
  unfold taskOrder; infer_instance

/-- Source: `minutesByDay` — per-day-key total of block durations. -/
def minutesByDay (blocks : List PlannedBlock) : Int → Int :=
  blocks.foldl
    (fun totals block =>
      let key := dayKey block.start
      setVal totals key (totals key + minutesBetween block.start block.«end»))
    (fun _ => 0)

/-- Source: `minutesByTask` — per-task-id total of block durations. -/
def minutesByTask (blocks : List PlannedBlock) : String → Int :=
  blocks.foldl
    (fun totals block =>
      setVal totals block.taskId (totals block.taskId + minutesBetween block.start block.«end»))
    (fun _ => 0)

/-- Source: `latestDependencyEnd` — latest end among blocks of dependency tasks. -/
def latestDependencyEnd (task : Task) (blocks : List PlannedBlock) : Option Int :=
  match task.dependencies with
  | none => none
  | some deps =>
    if deps.isEmpty then none
    else
      match blocks.filter (fun b => deps.contains b.taskId) with
      | [] => none
      | first :: restBlocks =>
        some ((first :: restBlocks).foldl
          (fun latest b => if latest < b.«end» then b.«end» else latest) first.«end»)

/-- Warning pushed when a task's earliest start is after its deadline. -/
def deadlineWarning (task : Task) : PlanWarning :=
  ⟨"DEADLINE_ALREADY_PASSED", task.title ++ " has an earliest start after its deadline.",
    some task.id⟩

/-- Warning pushed when minutes remain unscheduled after the horizon walk. -/
def insufficientWarning (task : Task) (remaining : Int) : PlanWarning :=
  ⟨"INSUFFICIENT_TIME",
    task.title ++ " has " ++ toString remaining ++ " minutes unscheduled within the horizon.",
    some task.id⟩

/-- Validator warning: block outside working hours. -/
def outsideWorkHoursWarning (b : PlannedBlock) : PlanWarning :=
  ⟨"OUTSIDE_WORK_HOURS", "Block " ++ b.id ++ " sits outside working hours.", none⟩

/-- Validator warning: block overlaps a busy event. -/
def overlapsBusyWarning (b : PlannedBlock) : PlanWarning :=
  ⟨"OVERLAPS_BUSY", "Block " ++ b.id ++ " overlaps a busy event.", none⟩

/-- Validator warning: two consecutive (by start) blocks overlap. -/
def blockOverlapWarning (a b : PlannedBlock) : PlanWarning :=
  ⟨"BLOCK_OVERLAP", "Blocks " ++ a.id ++ " and " ++ b.id ++ " overlap.", none⟩

/-- One new block as built in the allocator loop (id embeds the minute timestamp
where the source embeds the millisecond timestamp). -/
def mkBlock (task : Task) (slotStart blockEnd : Int) (firstBlock : Bool) : PlannedBlock :=
  let preferred := isPreferredWindow task slotStart
  let nearDeadline := deadlineIsNear task.deadline slotStart
  { id := task.id ++ "-" ++ toString slotStart
    taskId := task.id
    start := slotStart
    «end» := blockEnd
    confidence := confidenceForBlock preferred nearDeadline firstBlock
    reasonCodes :=
      ([if firstBlock then "FIRST_AVAILABLE" else "CHUNKED",
        if preferred then "PREFERRED_WINDOW" else "EARLIEST_SLOT",
        if nearDeadline then "NEAR_DEADLINE" else "NORMAL_BUFFER"].filter (fun v => v ≠ "")) }

/-- Mutable state of the inner `while (remaining > 0)` loop. -/
structure FillState where
  slotStart : Int
  remaining : Int
  firstBlock : Bool
  blocks : List PlannedBlock
  dailyTotals : Int → Int

/-- Source: the inner `while (remaining > 0)` greedy fill loop of `generatePlan`
(fuel-indexed; `remaining + 1` fuel is enough whenever `minBlock ≥ 1`). -/
def fillSlot (task : Task) (minBlock maxBlock maxDaily : Int) (k : Int) (slotEnd : Int) :
    Nat → FillState → FillState
  | 0, st => st
  | Nat.succ fuel, st =>
    if st.remaining ≤ 0 then st
    else
      let availableMinutes := minutesBetween st.slotStart slotEnd
      let alreadyPlanned := st.dailyTotals k
      let remainingDaily := maxDaily - alreadyPlanned
      let canFit := min (min availableMinutes remainingDaily) (min maxBlock st.remaining)
      if availableMinutes < minBlock ∨ remainingDaily < minBlock ∨ canFit < minBlock then st
      else
        let blockMinutes := canFit
        let blockEnd := st.slotStart + blockMinutes
        let block := mkBlock task st.slotStart blockEnd st.firstBlock
        let blocks := st.blocks ++ [block]
        let dailyTotals := setVal st.dailyTotals k (alreadyPlanned + blockMinutes)
        let remaining := st.remaining - blockMinutes
        let slotStart := blockEnd
        if task.interruptible = false then
          ⟨slotStart, 0, false, blocks, dailyTotals⟩
        else if minutesBetween slotStart slotEnd < minBlock then
          ⟨slotStart, remaining, false, blocks, dailyTotals⟩
        else
          fillSlot task minBlock maxBlock maxDaily k slotEnd fuel
            ⟨slotStart, remaining, false, blocks, dailyTotals⟩

/-- Result of walking one day's slot list. -/
structure DayState where
  slots : List Interval
  remaining : Int
  firstBlock : Bool
  blocks : List PlannedBlock
  dailyTotals : Int → Int

/-- Clip a slot's start to the task's effective earliest start (source line
`slot.start < earliest ? earliest : slot.start`). -/
def clipStart (earliest : Int) (slot : Interval) : Int :=
  if slot.start < earliest then earliest else slot.start

/-- Clip a slot's end to the task's deadline (source: `slotEnd > deadline` check). -/
def clipEnd (deadline : Option Int) (slot : Interval) : Int :=
  match deadline with
  | some d => if d < slot.«end» then d else slot.«end»
  | none => slot.«end»

/-- Source: the `for (index …)` walk over one day's slot list, including the
splice-or-replace update of each visited slot. -/
def processSlots (task : Task) (minBlock maxBlock maxDaily : Int) (earliest : Int)
    (deadline : Option Int) (k : Int) :
    List Interval → Int → Bool → List PlannedBlock → (Int → Int) → DayState
  | [], remaining, firstBlock, blocks, dailyTotals =>
    ⟨[], remaining, firstBlock, blocks, dailyTotals⟩
  | slot :: rest, remaining, firstBlock, blocks, dailyTotals =>
    if remaining ≤ 0 then ⟨slot :: rest, remaining, firstBlock, blocks, dailyTotals⟩
    else
      let slotStart := clipStart earliest slot
      let slotEnd := clipEnd deadline slot
      if slotEnd ≤ slotStart then
        let r := processSlots task minBlock maxBlock maxDaily earliest deadline k
          rest remaining firstBlock blocks dailyTotals
        ⟨slot :: r.slots, r.remaining, r.firstBlock, r.blocks, r.dailyTotals⟩
      else
        let f := fillSlot task minBlock maxBlock maxDaily k slotEnd (remaining.toNat + 1)
          ⟨slotStart, remaining, firstBlock, blocks, dailyTotals⟩
        if slotEnd ≤ f.slotStart then
          processSlots task minBlock maxBlock maxDaily earliest deadline k
            rest f.remaining f.firstBlock f.blocks f.dailyTotals
        else
          let r := processSlots task minBlock maxBlock maxDaily earliest deadline k
            rest f.remaining f.firstBlock f.blocks f.dailyTotals
          ⟨({ start := f.slotStart, «end» := slotEnd } : Interval) :: r.slots,
            r.remaining, r.firstBlock, r.blocks, r.dailyTotals⟩

/-- Per-task mutable state across the horizon walk. -/
structure TaskState where
  slots : Int → List Interval
  remaining : Int
  firstBlock : Bool
  blocks : List PlannedBlock
  dailyTotals : Int → Int

/-- Source: the body of the horizon `for (offset …)` loop for one day; the
boolean is the `break` on a deadline preceding the day's start. -/
def processDay (task : Task) (minBlock maxBlock : Int) (earliest : Int) (deadline : Option Int)
    (settings : Settings) (startDay : Int) (offset : Nat) (st : TaskState) : TaskState × Bool :=
  let day := addDays startDay offset
  let k := dayKey day
  let slots := st.slots k
  if slots.isEmpty then (st, false)
  else
    let dayStart := combineDateAndTime day settings.workDayStart
    let dayEnd := combineDateAndTime day settings.workDayEnd
    if dayEnd < earliest then (st, false)
    else if (match deadline with | some d => decide (d < dayStart) | none => false) = true then
      (st, true)
    else
      let r := processSlots task minBlock maxBlock settings.maxDailyMinutes earliest deadline k
        slots st.remaining st.firstBlock st.blocks st.dailyTotals
      (⟨setVal st.slots k r.slots, r.remaining, r.firstBlock, r.blocks, r.dailyTotals⟩, false)

/-- Source: the horizon `for (offset …)` loop, with its two `break` conditions. -/
def processDays (task : Task) (minBlock maxBlock : Int) (earliest : Int) (deadline : Option Int)
    (settings : Settings) (startDay : Int) : List Nat → TaskState → TaskState
  | [], st => st
  | offset :: rest, st =>
    if st.remaining ≤ 0 then st
    else
      let p := processDay task minBlock maxBlock earliest deadline settings startDay offset st
      if p.2 then p.1
      else processDays task minBlock maxBlock earliest deadline settings startDay rest p.1

/-- Run-wide allocator state threaded through the per-task loop. -/
structure AllocState where
  slots : Int → List Interval
  blocks : List PlannedBlock
  dailyTotals : Int → Int
  warnings : List PlanWarning

/-- The `earliest` computed for a task: its earliest start (default `now`)
pushed past the latest already-placed dependency block end. -/
def effectiveEarliest (task : Task) (blocks : List PlannedBlock) (now : Int) : Int :=
  let earliestStart := task.earliestStart.getD now
  match latestDependencyEnd task blocks with
  | some e => if earliestStart < e then e else earliestStart
  | none => earliestStart

/-- The `remaining` computed for a task on entry to its allocation pass. -/
def taskRemaining (lockedMinutesByTask : String → Int) (task : Task) : Int :=
  max 0 (task.estimatedMinutes - task.completedMinutes.getD 0 - lockedMinutesByTask task.id)

/-- Source: the body of `sortedTasks.forEach(...)` in `generatePlan`. -/
def processTask (settings : Settings) (startDay now : Int) (lockedMinutesByTask : String → Int)
    (st : AllocState) (task : Task) : AllocState :=
  let remaining := taskRemaining lockedMinutesByTask task
  if remaining = 0 then st
  else
    let earliest := effectiveEarliest task st.blocks now
    let deadline := task.deadline
    if (match deadline with | some d => decide (d < earliest) | none => false) = true then
      { st with warnings := st.warnings ++ [deadlineWarning task] }
    else
      let minBlock := if task.interruptible then task.minBlockMinutes else remaining
      let maxBlock := task.maxBlockMinutes.getD remaining
      let r := processDays task minBlock maxBlock earliest deadline settings startDay
        (List.range settings.planningHorizonDays.toNat)
        ⟨st.slots, remaining, true, st.blocks, st.dailyTotals⟩
      let warnings :=
        if 0 < r.remaining then st.warnings ++ [insufficientWarning task r.remaining]
        else st.warnings
      ⟨r.slots, r.blocks, r.dailyTotals, warnings⟩

/-- Order used by the validator's sort of blocks (comparator on start times). -/
def blockLE (a b : PlannedBlock) : Prop := a.start ≤ b.start

instance : DecidableRel blockLE := fun a b => by
  unfold blockLE; infer_instance

/-- The validator's adjacent-pair overlap sweep over the start-sorted block list. -/
def adjacentOverlapWarnings : List PlannedBlock → List PlanWarning
  | a :: b :: rest =>
    (if overlaps (blockInterval a) (blockInterval b) = true then [blockOverlapWarning a b] else [])
      ++ adjacentOverlapWarnings (b :: rest)
  | _ => []

/-- Source: `validateBlocks` — appends work-hour, busy-overlap and adjacent
block-overlap warnings to the accumulated list. -/
def validateBlocks (blocks : List PlannedBlock) (events : List CalendarEvent)
    (settings : Settings) (warnings : List PlanWarning) : List PlanWarning :=
  let busyIntervals := (events.filter (fun e => e.busy)).map eventInterval
  let afterBlocks := blocks.foldl
    (fun ws block =>
      let blockIv := blockInterval block
      let day := startOfDay block.start
      let workStart := combineDateAndTime day settings.workDayStart
      let workEnd := combineDateAndTime day settings.workDayEnd
      let ws :=
        if block.start < workStart ∨ workEnd < block.«end» then
          ws ++ [outsideWorkHoursWarning block]
        else ws
      busyIntervals.foldl
        (fun ws busy =>
          if overlaps blockIv busy = true then ws ++ [overlapsBusyWarning block] else ws)
        ws)
    warnings
  afterBlocks ++ adjacentOverlapWarnings (List.insertionSort blockLE blocks)

/-- The allocator state at the start of a run: free slots, the locked blocks,
their daily totals, and no warnings. -/
def initialAllocState (events : List CalendarEvent) (settings : Settings)
    (lockedBlocks : List PlannedBlock) (now : Int) : AllocState :=
  ⟨buildFreeSlots (startOfDay now) settings events lockedBlocks, lockedBlocks,
    minutesByDay lockedBlocks, []⟩

/-- The allocator state after the per-task loop of `generatePlan` has run over
the sorted task list. -/
def allocFinal (tasks : List Task) (events : List CalendarEvent) (settings : Settings)
    (lockedBlocks : List PlannedBlock) (now : Int) : AllocState :=
  (List.insertionSort taskOrder tasks).foldl
    (processTask settings (startOfDay now) now (minutesByTask lockedBlocks))
    (initialAllocState events settings lockedBlocks now)

/-- Source: `generatePlan` — the full scheduling run, with `now` the single
wall-clock sample: build free slots, sort the tasks, run the per-task
allocation loop, then append the validator's warnings. -/
def generatePlan (tasks : List Task) (events : List CalendarEvent) (settings : Settings)
    (lockedBlocks : List PlannedBlock) (now : Int) : PlanResult :=
  let final := allocFinal tasks events settings lockedBlocks now
  let warnings := validateBlocks final.blocks events settings final.warnings
  { blocks := final.blocks
    warnings := warnings
    assumptions :=
      ["Working hours " ++ toString settings.workDayStart ++ "-" ++ toString settings.workDayEnd,
       "Lunch break " ++ toString settings.lunchStart ++ "-" ++ toString settings.lunchEnd,
       "Max daily focus " ++ toString settings.maxDailyMinutes ++ " minutes"]
    generatedAt := now }

/-! ### Interval toolkit -/

/-- Membership of a time point in a half-open interval. -/
def memIv (p : Int) (i : Interval) : Prop := i.start ≤ p ∧ p < i.«end»

instance (p : Int) (i : Interval) : Decidable (memIv p i) := by
  unfold memIv; infer_instance

/-- A time point covered by some interval of a list. -/
def coveredBy (p : Int) (l : List Interval) : Prop := ∃ i ∈ l, memIv p i

instance (p : Int) (l : List Interval) : Decidable (coveredBy p l) := by
  unfold coveredBy; exact List.decidableBEx _ l

/-- Length of an interval, clamped at zero exactly like `minutesBetween`. -/
def duration (i : Interval) : Int := minutesBetween i.start i.«end»

/-- Total length of a list of intervals. -/
def totalDuration (l : List Interval) : Int := (l.map duration).sum

/-- A nonempty (valid) interval. -/
def validIv (i : Interval) : Prop := i.start < i.«end»

instance (i : Interval) : Decidable (validIv i) := by
  unfold validIv; infer_instance

/-- Two intervals share no time point. -/
def ivDisjoint (a b : Interval) : Prop := ∀ p : Int, memIv p a → ¬ memIv p b

/-- The set of time points of an interval. -/
def ivFinset (i : Interval) : Finset Int := Finset.Ico i.start i.«end»

/-- The set of time points covered by a list of intervals. -/
def covFinset (l : List Interval) : Finset Int := l.foldr (fun i acc => ivFinset i ∪ acc) ∅

theorem overlaps_eq_true_iff {a b : Interval} :
    overlaps a b = true ↔ a.start < b.«end» ∧ b.start < a.«end» := by
  simp [overlaps]

theorem overlaps_eq_false_iff {a b : Interval} :
    overlaps a b = false ↔ b.«end» ≤ a.start ∨ a.«end» ≤ b.start := by
  simp [overlaps]; omega

theorem mem_ivFinset {p : Int} {i : Interval} : p ∈ ivFinset i ↔ memIv p i := by
  simp [ivFinset, memIv]

theorem duration_eq_card (i : Interval) : duration i = ((ivFinset i).card : Int) := by
  simp only [duration, minutesBetween, ivFinset, Int.card_Ico]
  omega

theorem covFinset_cons (i : Interval) (tl : List Interval) :
    covFinset (i :: tl) = ivFinset i ∪ covFinset tl := rfl

theorem coveredBy_cons {p : Int} {i : Interval} {tl : List Interval} :
    coveredBy p (i :: tl) ↔ memIv p i ∨ coveredBy p tl := by
  unfold coveredBy
  constructor
  · rintro ⟨x, hx, hmem⟩
    rcases List.mem_cons.mp hx with rfl | hx
    · exact Or.inl hmem
    · exact Or.inr ⟨x, hx, hmem⟩
  · rintro (h | ⟨x, hx, hmem⟩)
    · exact ⟨i, List.mem_cons_self i tl, h⟩
    · exact ⟨x, List.mem_cons_of_mem i hx, hmem⟩

theorem mem_covFinset {p : Int} {l : List Interval} : p ∈ covFinset l ↔ coveredBy p l := by
  induction l with
  | nil => simp [covFinset, coveredBy]
  | cons i tl ih =>
    rw [covFinset_cons, Finset.mem_union, mem_ivFinset, ih, coveredBy_cons]

theorem mem_subtractInterval_iff {b c x : Interval} :
    x ∈ subtractInterval b c ↔
      (overlaps b c = false ∧ x = b) ∨
      (overlaps b c = true ∧ b.start < c.start ∧ x = ⟨b.start, c.start⟩) ∨
      (overlaps b c = true ∧ c.«end» < b.«end» ∧ x = ⟨c.«end», b.«end»⟩) := by
  unfold subtractInterval
  by_cases h : overlaps b c = false
  · rw [if_pos h]; simp [h]
  · rw [if_neg h]
    rw [Bool.not_eq_false] at h
    split_ifs with h1 h2 h3 <;> simp_all

theorem coveredBy_subtractInterval {p : Int} {b c : Interval} :
    coveredBy p (subtractInterval b c) ↔ memIv p b ∧ ¬ memIv p c := by
  unfold coveredBy
  constructor
  · rintro ⟨i, hi, hmem⟩
    rw [mem_subtractInterval_iff] at hi
    unfold memIv at hmem ⊢
    rcases hi with ⟨hov, rfl⟩ | ⟨hov, h1, rfl⟩ | ⟨hov, h1, rfl⟩
    · rw [overlaps_eq_false_iff] at hov
      exact ⟨hmem, by omega⟩
    · rw [overlaps_eq_true_iff] at hov
      constructor <;> simp only [] at hmem <;> omega
    · rw [overlaps_eq_true_iff] at hov
      constructor <;> simp only [] at hmem <;> omega
  · rintro ⟨hb, hc⟩
    unfold memIv at hb hc
    rcases hov : overlaps b c with _ | _
    · exact ⟨b, mem_subtractInterval_iff.mpr (Or.inl ⟨hov, rfl⟩), hb⟩
    · have hov' := overlaps_eq_true_iff.mp hov
      by_cases h1 : p < c.start
      · exact ⟨⟨b.start, c.start⟩,
          mem_subtractInterval_iff.mpr (Or.inr (Or.inl ⟨hov, by omega, rfl⟩)),
          ⟨hb.1, h1⟩⟩
      · exact ⟨⟨c.«end», b.«end»⟩,
          mem_subtractInterval_iff.mpr (Or.inr (Or.inr ⟨hov, by omega, rfl⟩)),
          ⟨show c.«end» ≤ p by omega, hb.2⟩⟩

theorem subtractIntervals_cons (bases : List Interval) (c : Interval) (cs : List Interval) :
    subtractIntervals bases (c :: cs) =
      subtractIntervals (bases.flatMap (fun b => subtractInterval b c)) cs := rfl

theorem coveredBy_flatMap_subtract {p : Int} {bases : List Interval} {c : Interval} :
    coveredBy p (bases.flatMap (fun b => subtractInterval b c)) ↔
      coveredBy p bases ∧ ¬ memIv p c := by
  constructor
  · rintro ⟨i, hi, hmem⟩
    rw [List.mem_flatMap] at hi
    obtain ⟨b, hb, hib⟩ := hi
    have := coveredBy_subtractInterval (p := p) (b := b) (c := c)
    have h2 : coveredBy p (subtractInterval b c) := ⟨i, hib, hmem⟩
    rw [this] at h2
    exact ⟨⟨b, hb, h2.1⟩, h2.2⟩
  · rintro ⟨⟨b, hb, hmem⟩, hc⟩
    have h2 : coveredBy p (subtractInterval b c) :=
      (coveredBy_subtractInterval).mpr ⟨hmem, hc⟩
    obtain ⟨i, hi, hmi⟩ := h2
    exact ⟨i, List.mem_flatMap.mpr ⟨b, hb, hi⟩, hmi⟩

theorem coveredBy_subtractIntervals {p : Int} (cuts : List Interval) (bases : List Interval) :
    coveredBy p (subtractIntervals bases cuts) ↔
      coveredBy p bases ∧ ∀ c ∈ cuts, ¬ memIv p c := by
  induction cuts generalizing bases with
  | nil => simp [subtractIntervals]
  | cons c cs ih =>
    rw [subtractIntervals_cons, ih, coveredBy_flatMap_subtract]
    constructor
    · rintro ⟨⟨hb, hc⟩, hcs⟩
      refine ⟨hb, fun x hx => ?_⟩
      rcases List.mem_cons.mp hx with rfl | hx
      · exact hc
      · exact hcs x hx
    · rintro ⟨hb, hall⟩
      exact ⟨⟨hb, hall c (by simp)⟩, fun x hx => hall x (by simp [hx])⟩

theorem mem_subtractInterval_subset {b c x : Interval} (hx : x ∈ subtractInterval b c) :
    ∀ p, memIv p x → memIv p b := by
  intro p hp
  rw [mem_subtractInterval_iff] at hx
  rcases hx with ⟨hov, rfl⟩ | ⟨hov, h1, rfl⟩ | ⟨hov, h1, rfl⟩
  · exact hp
  · rw [overlaps_eq_true_iff] at hov
    unfold memIv at hp ⊢; simp only [] at hp ⊢; omega
  · rw [overlaps_eq_true_iff] at hov
    unfold memIv at hp ⊢; simp only [] at hp ⊢; omega

theorem mem_subtractInterval_disj_cut {b c x : Interval} (hx : x ∈ subtractInterval b c) :
    ivDisjoint x c := by
  intro p hp hpc
  rw [mem_subtractInterval_iff] at hx
  rcases hx with ⟨hov, rfl⟩ | ⟨hov, h1, rfl⟩ | ⟨hov, h1, rfl⟩
  · rw [overlaps_eq_false_iff] at hov
    unfold memIv at hp hpc; omega
  · unfold memIv at hp hpc; simp only [] at hp; omega
  · unfold memIv at hp hpc; simp only [] at hp; omega

theorem subtractInterval_pairwise {b c : Interval} (hc : validIv c) :
    (subtractInterval b c).Pairwise ivDisjoint := by
  unfold validIv at hc
  unfold subtractInterval
  by_cases h : overlaps b c = false
  · rw [if_pos h]; simp
  · rw [if_neg h]
    split_ifs with h1 h2 h3
    · rw [List.singleton_append]
      refine List.pairwise_cons.mpr ⟨?_, List.pairwise_singleton _ _⟩
      intro y hy
      rw [List.mem_singleton] at hy
      subst hy
      intro p hp hpy
      unfold memIv at hp hpy
      exact absurd hpy (by dsimp only at hp ⊢; omega)
    · exact List.pairwise_singleton _ _
    · exact List.pairwise_singleton _ _
    · exact List.Pairwise.nil

theorem mem_flatMap_subtract_subset {bases : List Interval} {c x : Interval}
    (hx : x ∈ bases.flatMap (fun b => subtractInterval b c)) :
    ∃ b ∈ bases, ∀ p, memIv p x → memIv p b := by
  rw [List.mem_flatMap] at hx
  obtain ⟨b, hb, hxb⟩ := hx
  exact ⟨b, hb, mem_subtractInterval_subset hxb⟩

theorem flatMap_subtract_pairwise {bases : List Interval} {c : Interval}
    (hb : bases.Pairwise ivDisjoint) (hc : validIv c) :
    (bases.flatMap (fun b => subtractInterval b c)).Pairwise ivDisjoint := by
  induction bases with
  | nil => exact List.Pairwise.nil
  | cons b bs ih =>
    rw [List.flatMap_cons, List.pairwise_append]
    rw [List.pairwise_cons] at hb
    refine ⟨subtractInterval_pairwise hc, ih hb.2, ?_⟩
    intro x hx y hy
    obtain ⟨b', hb', hsub⟩ := mem_flatMap_subtract_subset hy
    intro p hpx hpy
    exact hb.1 b' hb' p (mem_subtractInterval_subset hx p hpx) (hsub p hpy)

theorem subtractIntervals_pairwise (cuts : List Interval) (bases : List Interval)
    (hb : bases.Pairwise ivDisjoint) (hc : ∀ c ∈ cuts, validIv c) :
    (subtractIntervals bases cuts).Pairwise ivDisjoint := by
  induction cuts generalizing bases with
  | nil => exact hb
  | cons c cs ih =>
    rw [subtractIntervals_cons]
    exact ih _ (flatMap_subtract_pairwise hb (hc c (by simp)))
      (fun x hx => hc x (by simp [hx]))

theorem subtractIntervals_subset (cuts : List Interval) (bases : List Interval)
    {x : Interval} (hx : x ∈ subtractIntervals bases cuts) :
    ∃ b ∈ bases, ∀ p, memIv p x → memIv p b := by
  induction cuts generalizing bases with
  | nil => exact ⟨x, hx, fun p hp => hp⟩
  | cons c cs ih =>
    rw [subtractIntervals_cons] at hx
    obtain ⟨y, hy, hsub⟩ := ih _ hx
    obtain ⟨b, hb, hsub2⟩ := mem_flatMap_subtract_subset hy
    exact ⟨b, hb, fun p hp => hsub2 p (hsub p hp)⟩

theorem subtractIntervals_append (b1 b2 cuts : List Interval) :
    subtractIntervals (b1 ++ b2) cuts =
      subtractIntervals b1 cuts ++ subtractIntervals b2 cuts := by
  induction cuts generalizing b1 b2 with
  | nil => rfl
  | cons c cs ih => rw [subtractIntervals_cons, List.flatMap_append, ih]; rfl

theorem totalDuration_append (l1 l2 : List Interval) :
    totalDuration (l1 ++ l2) = totalDuration l1 + totalDuration l2 := by
  simp [totalDuration]

theorem totalDuration_eq_card {l : List Interval} (h : l.Pairwise ivDisjoint) :
    totalDuration l = ((covFinset l).card : Int) := by
  induction l with
  | nil => simp [totalDuration, covFinset]
  | cons i tl ih =>
    rw [List.pairwise_cons] at h
    have hdisj : Disjoint (ivFinset i) (covFinset tl) := by
      rw [Finset.disjoint_left]
      intro p hp hptl
      rw [mem_ivFinset] at hp
      rw [mem_covFinset] at hptl
      obtain ⟨j, hj, hpj⟩ := hptl
      exact h.1 j hj p hp hpj
    have : totalDuration (i :: tl) = duration i + totalDuration tl := by
      simp [totalDuration]
    rw [this, ih h.2, duration_eq_card]
    have : covFinset (i :: tl) = ivFinset i ∪ covFinset tl := rfl
    rw [this, Finset.card_union_of_disjoint hdisj]
    push_cast
    ring

theorem covFinset_subtract_single (b : Interval) (cuts : List Interval) :
    covFinset (subtractIntervals [b] cuts) = ivFinset b \ covFinset cuts := by
  apply Finset.ext
  intro p
  rw [mem_covFinset, Finset.mem_sdiff, mem_ivFinset, mem_covFinset,
    coveredBy_subtractIntervals]
  simp [coveredBy]

theorem covFinset_perm {l1 l2 : List Interval} (h : l1.Perm l2) :
    covFinset l1 = covFinset l2 := by
  apply Finset.ext
  intro p
  rw [mem_covFinset, mem_covFinset]
  unfold coveredBy
  constructor
  · rintro ⟨i, hi, hp⟩
    exact ⟨i, h.mem_iff.mp hi, hp⟩
  · rintro ⟨i, hi, hp⟩
    exact ⟨i, h.mem_iff.mpr hi, hp⟩

theorem subtractIntervals_nil (cuts : List Interval) :
    subtractIntervals [] cuts = [] := by
  induction cuts with
  | nil => rfl
  | cons c cs ih => rw [subtractIntervals_cons]; simpa using ih

theorem totalDuration_subtract_eq (bases cuts : List Interval)
    (hc : ∀ c ∈ cuts, validIv c) :
    totalDuration (subtractIntervals bases cuts) =
      ((bases.map (fun b => ((ivFinset b \ covFinset cuts).card : Int))).sum) := by
  induction bases with
  | nil => rw [subtractIntervals_nil]; simp [totalDuration]
  | cons b bs ih =>
    have hsplit : subtractIntervals (b :: bs) cuts =
        subtractIntervals [b] cuts ++ subtractIntervals bs cuts :=
      subtractIntervals_append [b] bs cuts
    rw [hsplit, totalDuration_append, ih]
    have hpw : (subtractIntervals [b] cuts).Pairwise ivDisjoint :=
      subtractIntervals_pairwise cuts [b] (by simp) hc
    rw [totalDuration_eq_card hpw, covFinset_subtract_single]
    simp

/-- C9: the points covered by `subtractIntervals(bases, cuts)` are exactly the
points covered by the bases and by no cut; and, for valid cuts, the total
free-time duration is invariant under permutation of the cuts. -/
theorem c9_subtract_coverage_and_cut_order (bases cuts cuts' : List Interval)
    (hvalid : ∀ c ∈ cuts, validIv c) (hperm : cuts.Perm cuts') :
    (∀ p : Int, coveredBy p (subtractIntervals bases cuts) ↔
      (coveredBy p bases ∧ ∀ c ∈ cuts, ¬ memIv p c)) ∧
    totalDuration (subtractIntervals bases cuts) =
      totalDuration (subtractIntervals bases cuts') := by
  refine ⟨fun p => coveredBy_subtractIntervals cuts bases, ?_⟩
  have hvalid' : ∀ c ∈ cuts', validIv c := fun c hc => hvalid c (hperm.mem_iff.mpr hc)
  rw [totalDuration_subtract_eq bases cuts hvalid,
    totalDuration_subtract_eq bases cuts' hvalid', covFinset_perm hperm]

/-- Witness for C9 at a concrete instance: one base, two cuts, permuted. -/
theorem c9_subtract_coverage_and_cut_order_witness :
    (∀ p : Int, coveredBy p (subtractIntervals [⟨0, 10⟩] [⟨2, 4⟩, ⟨6, 7⟩]) ↔
      (coveredBy p [⟨0, 10⟩] ∧ ∀ c ∈ [(⟨2, 4⟩ : Interval), ⟨6, 7⟩], ¬ memIv p c)) ∧
    totalDuration (subtractIntervals [⟨0, 10⟩] [⟨2, 4⟩, ⟨6, 7⟩]) =
      totalDuration (subtractIntervals [⟨0, 10⟩] [⟨6, 7⟩, ⟨2, 4⟩]) :=
  c9_subtract_coverage_and_cut_order [⟨0, 10⟩] [⟨2, 4⟩, ⟨6, 7⟩] [⟨6, 7⟩, ⟨2, 4⟩]
    (by decide) (by decide)

/-! ### Task ordering -/

/-- Modelled from the spec's description of the processing order: primary key
deadline ascending with a missing deadline as positive infinity (sorting last),
secondary key priority descending, tertiary key title ascending
(case-sensitive lexicographic). -/
def specTaskOrder (a b : Task) : Prop :=
  (match a.deadline, b.deadline with
   | some x, some y => x < y
   | some _, none => True
   | none, _ => False) ∨
  (a.deadline = b.deadline ∧ b.priority < a.priority) ∨
  (a.deadline = b.deadline ∧ a.priority = b.priority ∧ a.title ≤ b.title)

/-- The deadline key with a missing deadline mapped to positive infinity. -/
def deadlineKey (t : Task) : WithTop Int :=
  match t.deadline with
  | some x => (x : WithTop Int)
  | none => ⊤

theorem deadlineKey_lt_iff {a b : Task} :
    deadlineKey a < deadlineKey b ↔
      (match a.deadline, b.deadline with
       | some x, some y => x < y
       | some _, none => True
       | none, _ => False) := by
  unfold deadlineKey
  rcases a.deadline with _ | x <;> rcases b.deadline with _ | y <;>
    simp [WithTop.coe_lt_top, WithTop.coe_lt_coe]

theorem deadlineKey_eq_iff {a b : Task} :
    deadlineKey a = deadlineKey b ↔ a.deadline = b.deadline := by
  unfold deadlineKey
  rcases a.deadline with _ | x <;> rcases b.deadline with _ | y <;> simp

theorem specTaskOrder_iff_key {a b : Task} :
    specTaskOrder a b ↔
      (deadlineKey a < deadlineKey b ∨ (deadlineKey a = deadlineKey b ∧
        (b.priority < a.priority ∨ (a.priority = b.priority ∧ a.title ≤ b.title)))) := by
  unfold specTaskOrder
  rw [deadlineKey_lt_iff, deadlineKey_eq_iff]
  tauto

theorem taskOrder_iff_spec (a b : Task) : taskOrder a b ↔ specTaskOrder a b := by
  unfold taskOrder taskLE specTaskOrder
  rcases a.deadline with _ | x <;> rcases b.deadline with _ | y <;>
    simp only [] <;> (try split_ifs with h1 h2) <;>
    simp_all [decide_eq_true_eq] <;> omega

theorem specTaskOrder_total (a b : Task) : specTaskOrder a b ∨ specTaskOrder b a := by
  rw [specTaskOrder_iff_key, specTaskOrder_iff_key]
  rcases lt_trichotomy (deadlineKey a) (deadlineKey b) with h | h | h
  · exact Or.inl (Or.inl h)
  · rcases lt_trichotomy a.priority b.priority with hp | hp | hp
    · exact Or.inr (Or.inr ⟨h.symm, Or.inl hp⟩)
    · rcases le_total a.title b.title with ht | ht
      · exact Or.inl (Or.inr ⟨h, Or.inr ⟨hp, ht⟩⟩)
      · exact Or.inr (Or.inr ⟨h.symm, Or.inr ⟨hp.symm, ht⟩⟩)
    · exact Or.inl (Or.inr ⟨h, Or.inl hp⟩)
  · exact Or.inr (Or.inl h)

theorem specTaskOrder_trans (a b c : Task) (h1 : specTaskOrder a b)
    (h2 : specTaskOrder b c) : specTaskOrder a c := by
  rw [specTaskOrder_iff_key] at h1 h2 ⊢
  rcases h1 with h1 | ⟨h1e, h1r⟩
  · rcases h2 with h2 | ⟨h2e, _⟩
    · exact Or.inl (lt_trans h1 h2)
    · exact Or.inl (h2e ▸ h1)
  · rcases h2 with h2 | ⟨h2e, h2r⟩
    · exact Or.inl (h1e ▸ h2)
    · refine Or.inr ⟨h1e.trans h2e, ?_⟩
      rcases h1r with h1r | ⟨h1p, h1t⟩
      · rcases h2r with h2r | ⟨h2p, _⟩
        · exact Or.inl (lt_trans h2r h1r)
        · exact Or.inl (h2p ▸ h1r)
      · rcases h2r with h2r | ⟨h2p, h2t⟩
        · exact Or.inl (h1p ▸ h2r)
        · exact Or.inr ⟨h1p.trans h2p, le_trans h1t h2t⟩

theorem specTaskOrder_antisymm_keys (a b : Task) (h1 : specTaskOrder a b)
    (h2 : specTaskOrder b a) :
    a.deadline = b.deadline ∧ a.priority = b.priority ∧ a.title = b.title := by
  rw [specTaskOrder_iff_key] at h1 h2
  rcases h1 with h1 | ⟨h1e, h1r⟩
  · rcases h2 with h2 | ⟨h2e, _⟩
    · exact absurd (lt_trans h1 h2) (lt_irrefl _)
    · exact absurd (h2e ▸ h1) (lt_irrefl _)
  · rcases h2 with h2 | ⟨h2e, h2r⟩
    · exact absurd (h1e ▸ h2) (lt_irrefl _)
    · refine ⟨deadlineKey_eq_iff.mp h1e, ?_⟩
      rcases h1r with h1r | ⟨h1p, h1t⟩
      · rcases h2r with h2r | ⟨h2p, _⟩
        · exact absurd (lt_trans h1r h2r) (lt_irrefl _)
        · exact absurd (h2p ▸ h1r) (lt_irrefl _)
      · rcases h2r with h2r | ⟨h2p, h2t⟩
        · exact absurd (h1p ▸ h2r) (lt_irrefl _)
        · exact ⟨h1p, le_antisymm h1t h2t⟩

instance : IsTotal Task taskOrder :=
  ⟨fun a b => by
    rw [taskOrder_iff_spec, taskOrder_iff_spec]
    exact specTaskOrder_total a b⟩

instance : IsTrans Task taskOrder :=
  ⟨fun a b c h1 h2 => by
    rw [taskOrder_iff_spec] at h1 h2 ⊢
    exact specTaskOrder_trans a b c h1 h2⟩

/-- C8: the processing order used once per run by `generatePlan` is sorted by
the comparator relation `taskOrder`; that relation coincides with the spec's
described key order (deadline ascending with missing deadline last, then
priority descending, then title), is total and transitive, and two tasks
ordered both ways agree on all three keys, so the order is a deterministic
total order on the sort keys. -/
theorem c8_task_sort_order (tasks : List Task) :
    List.Sorted taskOrder (List.insertionSort taskOrder tasks) ∧
    (∀ a b : Task, taskOrder a b ↔ specTaskOrder a b) ∧
    (∀ a b : Task, taskOrder a b ∨ taskOrder b a) ∧
    (∀ a b c : Task, taskOrder a b → taskOrder b c → taskOrder a c) ∧
    (∀ a b : Task, taskOrder a b → taskOrder b a →
      a.deadline = b.deadline ∧ a.priority = b.priority ∧ a.title = b.title) := by
  refine ⟨List.sorted_insertionSort taskOrder tasks, taskOrder_iff_spec, ?_, ?_, ?_⟩
  · exact fun a b => (inferInstance : IsTotal Task taskOrder).total a b
  · exact fun a b c h1 h2 => (inferInstance : IsTrans Task taskOrder).trans a b c h1 h2
  · intro a b h1 h2
    rw [taskOrder_iff_spec] at h1 h2
    exact specTaskOrder_antisymm_keys a b h1 h2

/-! ### Plan validator: block-overlap warnings -/

theorem generatePlan_blocks_eq (tasks : List Task) (events : List CalendarEvent)
    (settings : Settings) (lockedBlocks : List PlannedBlock) (now : Int) :
    (generatePlan tasks events settings lockedBlocks now).blocks =
      (allocFinal tasks events settings lockedBlocks now).blocks := rfl

theorem generatePlan_warnings_eq (tasks : List Task) (events : List CalendarEvent)
    (settings : Settings) (lockedBlocks : List PlannedBlock) (now : Int) :
    (generatePlan tasks events settings lockedBlocks now).warnings =
      validateBlocks (allocFinal tasks events settings lockedBlocks now).blocks events settings
        (allocFinal tasks events settings lockedBlocks now).warnings := rfl

theorem validateBlocks_split (blocks : List PlannedBlock) (events : List CalendarEvent)
    (settings : Settings) (ws : List PlanWarning) :
    ∃ pre, validateBlocks blocks events settings ws =
      pre ++ adjacentOverlapWarnings (List.insertionSort blockLE blocks) := ⟨_, rfl⟩

theorem adjacentOverlapWarnings_mem (l : List PlannedBlock) :
    ∀ (i : Nat) (hi : i < l.length) (hi1 : i + 1 < l.length),
      overlaps (blockInterval (l.get ⟨i, hi⟩)) (blockInterval (l.get ⟨i + 1, hi1⟩)) = true →
      blockOverlapWarning (l.get ⟨i, hi⟩) (l.get ⟨i + 1, hi1⟩) ∈ adjacentOverlapWarnings l := by
  induction l with
  | nil => intro i hi; simp at hi
  | cons a tl ih =>
    intro i hi hi1 hov
    match tl, i with
    | [], 0 => simp at hi1
    | b :: rest, 0 =>
      unfold adjacentOverlapWarnings
      refine List.mem_append.mpr (Or.inl ?_)
      simp only [List.get] at hov
      rw [if_pos hov]
      simp [List.get]
    | b :: rest, Nat.succ j =>
      unfold adjacentOverlapWarnings
      refine List.mem_append.mpr (Or.inr ?_)
      exact ih j (by simpa using hi) (by simpa using hi1) hov

/-- C7 (amended): after the validator runs, every pair of blocks that are
adjacent in the start-sorted order of the final block set and whose intervals
overlap is reported by a `BLOCK_OVERLAP` warning naming that pair; the sweep
compares only adjacent pairs of the sorted list. -/
theorem c7_adjacent_overlaps_warned (tasks : List Task) (events : List CalendarEvent)
    (settings : Settings) (lockedBlocks : List PlannedBlock) (now : Int) (i : Nat)
    (hi : i < (List.insertionSort blockLE
      (generatePlan tasks events settings lockedBlocks now).blocks).length)
    (hi1 : i + 1 < (List.insertionSort blockLE
      (generatePlan tasks events settings lockedBlocks now).blocks).length)
    (hov : overlaps
      (blockInterval ((List.insertionSort blockLE
        (generatePlan tasks events settings lockedBlocks now).blocks).get ⟨i, hi⟩))
      (blockInterval ((List.insertionSort blockLE
        (generatePlan tasks events settings lockedBlocks now).blocks).get ⟨i + 1, hi1⟩))
      = true) :
    blockOverlapWarning
      ((List.insertionSort blockLE
        (generatePlan tasks events settings lockedBlocks now).blocks).get ⟨i, hi⟩)
      ((List.insertionSort blockLE
        (generatePlan tasks events settings lockedBlocks now).blocks).get ⟨i + 1, hi1⟩)
      ∈ (generatePlan tasks events settings lockedBlocks now).warnings := by
  rw [generatePlan_warnings_eq]
  obtain ⟨pre, hsplit⟩ := validateBlocks_split
    (allocFinal tasks events settings lockedBlocks now).blocks events settings
    (allocFinal tasks events settings lockedBlocks now).warnings
  rw [hsplit]
  refine List.mem_append.mpr (Or.inr ?_)
  exact adjacentOverlapWarnings_mem _ i hi hi1 hov

/-- Witness for C7 (amended) at a concrete run: two overlapping locked blocks
are adjacent in the sorted order and their warning is present. -/
theorem c7_adjacent_overlaps_warned_witness :
    blockOverlapWarning
      ((List.insertionSort blockLE
        (generatePlan [] [] ⟨0, 0, 1440, 0, 0, 0⟩
          [⟨"A", "tA", 0, 100, 0, [], some true⟩, ⟨"B", "tB", 50, 60, 0, [], some true⟩]
          0).blocks).get ⟨0, by decide⟩)
      ((List.insertionSort blockLE
        (generatePlan [] [] ⟨0, 0, 1440, 0, 0, 0⟩
          [⟨"A", "tA", 0, 100, 0, [], some true⟩, ⟨"B", "tB", 50, 60, 0, [], some true⟩]
          0).blocks).get ⟨1, by decide⟩)
      ∈ (generatePlan [] [] ⟨0, 0, 1440, 0, 0, 0⟩
          [⟨"A", "tA", 0, 100, 0, [], some true⟩, ⟨"B", "tB", 50, 60, 0, [], some true⟩]
          0).warnings :=
  c7_adjacent_overlaps_warned [] [] ⟨0, 0, 1440, 0, 0, 0⟩
    [⟨"A", "tA", 0, 100, 0, [], some true⟩, ⟨"B", "tB", 50, 60, 0, [], some true⟩]
    0 0 (by decide) (by decide) (by decide)

/-- C7 counterexample: with blocks A = [0,100), B = [0,10), C = [20,30) in the
final set, A and C overlap but are not adjacent in the start-sorted order, and
no `BLOCK_OVERLAP` warning names that pair, in either order. -/
theorem c7_counterexample :
    (⟨"A", "tA", 0, 100, 0, [], some true⟩ : PlannedBlock) ∈
      (generatePlan [] [] ⟨0, 0, 1440, 0, 0, 0⟩
        [⟨"A", "tA", 0, 100, 0, [], some true⟩, ⟨"B", "tB", 0, 10, 0, [], some true⟩,
          ⟨"C", "tC", 20, 30, 0, [], some true⟩] 0).blocks ∧
    (⟨"C", "tC", 20, 30, 0, [], some true⟩ : PlannedBlock) ∈
      (generatePlan [] [] ⟨0, 0, 1440, 0, 0, 0⟩
        [⟨"A", "tA", 0, 100, 0, [], some true⟩, ⟨"B", "tB", 0, 10, 0, [], some true⟩,
          ⟨"C", "tC", 20, 30, 0, [], some true⟩] 0).blocks ∧
    overlaps (blockInterval ⟨"A", "tA", 0, 100, 0, [], some true⟩)
      (blockInterval ⟨"C", "tC", 20, 30, 0, [], some true⟩) = true ∧
    blockOverlapWarning ⟨"A", "tA", 0, 100, 0, [], some true⟩
        ⟨"C", "tC", 20, 30, 0, [], some true⟩ ∉
      (generatePlan [] [] ⟨0, 0, 1440, 0, 0, 0⟩
        [⟨"A", "tA", 0, 100, 0, [], some true⟩, ⟨"B", "tB", 0, 10, 0, [], some true⟩,
          ⟨"C", "tC", 20, 30, 0, [], some true⟩] 0).warnings ∧
    blockOverlapWarning ⟨"C", "tC", 20, 30, 0, [], some true⟩
        ⟨"A", "tA", 0, 100, 0, [], some true⟩ ∉
      (generatePlan [] [] ⟨0, 0, 1440, 0, 0, 0⟩
        [⟨"A", "tA", 0, 100, 0, [], some true⟩, ⟨"B", "tB", 0, 10, 0, [], some true⟩,
          ⟨"C", "tC", 20, 30, 0, [], some true⟩] 0).warnings := by
  decide

/-! ### Allocator machinery: the inner fill loop -/

/-- Total length of a list of blocks, without clamping (placed blocks are
always nonempty, so this agrees with `minutesBetween` on them). -/
def sumDur (l : List PlannedBlock) : Int := (l.map (fun b => b.«end» - b.start)).sum

theorem sumDur_nil : sumDur [] = 0 := rfl

theorem sumDur_cons (b : PlannedBlock) (l : List PlannedBlock) :
    sumDur (b :: l) = (b.«end» - b.start) + sumDur l := by
  simp [sumDur]

theorem sumDur_append (l1 l2 : List PlannedBlock) :
    sumDur (l1 ++ l2) = sumDur l1 + sumDur l2 := by
  simp [sumDur]

@[simp] theorem mkBlock_start (task : Task) (s e : Int) (fb : Bool) :
    (mkBlock task s e fb).start = s := rfl

@[simp] theorem mkBlock_end (task : Task) (s e : Int) (fb : Bool) :
    (mkBlock task s e fb).«end» = e := rfl

@[simp] theorem mkBlock_taskId (task : Task) (s e : Int) (fb : Bool) :
    (mkBlock task s e fb).taskId = task.id := rfl

@[simp] theorem setVal_same {κ α : Type} [DecidableEq κ] (m : κ → α) (k : κ) (v : α) :
    setVal m k v k = v := by simp [setVal]

theorem setVal_other {κ α : Type} [DecidableEq κ] (m : κ → α) (k k' : κ) (v : α)
    (h : k' ≠ k) : setVal m k v k' = m k' := by simp [setVal, h]

/-- Everything one run of the inner fill loop guarantees: the placed blocks
are consecutive sub-blocks of `[st.slotStart, r.slotStart)`, each at least
`minBlock` long, the day totals move by exactly the placed minutes and stay
within the cap, and `remaining` is decremented accordingly. -/
structure FillSpec (task : Task) (minBlock maxDaily k slotEnd : Int)
    (st r : FillState) (placed : List PlannedBlock) : Prop where
  blocksEq : r.blocks = st.blocks ++ placed
  placedTask : ∀ b ∈ placed, b.taskId = task.id
  placedIn : ∀ b ∈ placed, st.slotStart ≤ b.start ∧ b.start < b.«end» ∧ b.«end» ≤ r.slotStart
  placedDurMin : ∀ b ∈ placed, minBlock ≤ b.«end» - b.start
  placedChain : placed.Pairwise (fun a b => a.«end» ≤ b.start)
  startMono : st.slotStart ≤ r.slotStart
  startLe : r.slotStart ≤ slotEnd
  totalsAt : r.dailyTotals k = st.dailyTotals k + sumDur placed
  totalsOther : ∀ k', k' ≠ k → r.dailyTotals k' = st.dailyTotals k'
  totalsCap : r.dailyTotals k ≤ max (st.dailyTotals k) maxDaily
  remInt : task.interruptible = true → r.remaining = st.remaining - sumDur placed
  remNonneg : 0 ≤ st.remaining → 0 ≤ r.remaining
  remNonintEmpty : task.interruptible = false → placed = [] → r.remaining = st.remaining
  remNonintOne : task.interruptible = false → placed ≠ [] →
    ∃ b, placed = [b] ∧ minBlock ≤ b.«end» - b.start ∧ b.«end» - b.start ≤ st.remaining ∧
      r.remaining = 0
  noPlaced : placed = [] → r = st

theorem FillSpec.rfl_of (task : Task) (minBlock maxDaily k slotEnd : Int) (st : FillState)
    (hle : st.slotStart ≤ slotEnd) :
    FillSpec task minBlock maxDaily k slotEnd st st [] where
  blocksEq := by simp
  placedTask := by simp
  placedIn := by simp
  placedDurMin := by simp
  placedChain := List.Pairwise.nil
  startMono := le_refl _
  startLe := hle
  totalsAt := by simp [sumDur_nil]
  totalsOther := fun _ _ => rfl
  totalsCap := le_max_left _ _
  remInt := fun _ => by simp [sumDur_nil]
  remNonneg := fun h => h
  remNonintEmpty := fun _ _ => rfl
  remNonintOne := fun _ h => absurd rfl h
  noPlaced := fun _ => rfl

theorem fillSlot_spec (task : Task) (minBlock maxBlock maxDaily k slotEnd : Int)
    (hmin : 1 ≤ minBlock) :
    ∀ (fuel : Nat) (st : FillState), st.slotStart ≤ slotEnd →
      ∃ placed, FillSpec task minBlock maxDaily k slotEnd st
        (fillSlot task minBlock maxBlock maxDaily k slotEnd fuel st) placed := by
  intro fuel
  induction fuel with
  | zero =>
    intro st hle
    exact ⟨[], FillSpec.rfl_of task minBlock maxDaily k slotEnd st hle⟩
  | succ fuel ih =>
    intro st hle
    simp only [fillSlot]
    by_cases h0 : st.remaining ≤ 0
    · rw [if_pos h0]
      exact ⟨[], FillSpec.rfl_of task minBlock maxDaily k slotEnd st hle⟩
    rw [if_neg h0]
    by_cases hbreak : minutesBetween st.slotStart slotEnd < minBlock ∨
        maxDaily - st.dailyTotals k < minBlock ∨
        min (min (minutesBetween st.slotStart slotEnd) (maxDaily - st.dailyTotals k))
          (min maxBlock st.remaining) < minBlock
    · rw [if_pos hbreak]
      exact ⟨[], FillSpec.rfl_of task minBlock maxDaily k slotEnd st hle⟩
    rw [if_neg hbreak]
    push_neg at hbreak
    obtain ⟨hav, hdaily, hfit⟩ := hbreak
    have hmb : 0 < minutesBetween st.slotStart slotEnd := lt_of_lt_of_le hmin hav
    have hmbEq : minutesBetween st.slotStart slotEnd = slotEnd - st.slotStart := by
      unfold minutesBetween at hmb ⊢; omega
    set canFit := min (min (minutesBetween st.slotStart slotEnd) (maxDaily - st.dailyTotals k))
      (min maxBlock st.remaining) with hcf
    have hcf1 : canFit ≤ slotEnd - st.slotStart := by
      rw [hcf, ← hmbEq]; exact le_trans (min_le_left _ _) (min_le_left _ _)
    have hcf2 : canFit ≤ maxDaily - st.dailyTotals k :=
      le_trans (min_le_left _ _) (min_le_right _ _)
    have hcf3 : canFit ≤ st.remaining :=
      le_trans (min_le_right _ _) (min_le_right _ _)
    have hcfPos : 1 ≤ canFit := le_trans hmin hfit
    set B := mkBlock task st.slotStart (st.slotStart + canFit) st.firstBlock with hB
    have hBdur : B.«end» - B.start = canFit := by rw [hB]; simp
    by_cases hInt : task.interruptible = false
    · rw [if_pos hInt]
      refine ⟨[B], ?_⟩
      exact
        { blocksEq := rfl
          placedTask := by
            intro b hb; rw [List.mem_singleton] at hb; subst hb; simp [hB]
          placedIn := by
            intro b hb; rw [List.mem_singleton] at hb; subst hb
            refine ⟨le_refl _, ?_, le_refl _⟩
            simp [hB]; omega
          placedDurMin := by
            intro b hb; rw [List.mem_singleton] at hb; subst hb
            rw [hBdur]; exact hfit
          placedChain := List.pairwise_singleton _ _
          startMono := by simp [hB]; omega
          startLe := by simp [hB]; omega
          totalsAt := by simp [sumDur_cons, sumDur_nil, hBdur]
          totalsOther := by intro k' hk'; exact setVal_other _ _ _ _ hk'
          totalsCap := by
            dsimp only
            rw [setVal_same]
            exact le_max_of_le_right (by omega)
          remInt := by intro h; rw [hInt] at h; cases h
          remNonneg := by intro _; exact le_refl 0
          remNonintEmpty := by intro _ h; cases h
          remNonintOne := by
            intro _ _
            exact ⟨B, rfl, by rw [hBdur]; exact hfit, by rw [hBdur]; exact hcf3, rfl⟩
          noPlaced := by intro h; cases h }
    rw [if_neg hInt]
    have hIntT : task.interruptible = true := by
      revert hInt
      rcases task.interruptible with _ | _ <;> simp
    by_cases hrem : minutesBetween (st.slotStart + canFit) slotEnd < minBlock
    · rw [if_pos hrem]
      refine ⟨[B], ?_⟩
      exact
        { blocksEq := rfl
          placedTask := by
            intro b hb; rw [List.mem_singleton] at hb; subst hb; simp [hB]
          placedIn := by
            intro b hb; rw [List.mem_singleton] at hb; subst hb
            refine ⟨le_refl _, ?_, le_refl _⟩
            simp [hB]; omega
          placedDurMin := by
            intro b hb; rw [List.mem_singleton] at hb; subst hb
            rw [hBdur]; exact hfit
          placedChain := List.pairwise_singleton _ _
          startMono := by simp [hB]; omega
          startLe := by simp [hB]; omega
          totalsAt := by simp [sumDur_cons, sumDur_nil, hBdur]
          totalsOther := by intro k' hk'; exact setVal_other _ _ _ _ hk'
          totalsCap := by
            dsimp only
            rw [setVal_same]
            exact le_max_of_le_right (by omega)
          remInt := by intro _; simp [sumDur_cons, sumDur_nil, hBdur]
          remNonneg := by intro _; simp; omega
          remNonintEmpty := by intro h; rw [h] at hIntT; cases hIntT
          remNonintOne := by intro h; rw [h] at hIntT; cases hIntT
          noPlaced := by intro h; cases h }
    rw [if_neg hrem]
    have hle' : st.slotStart + canFit ≤ slotEnd := by omega
    obtain ⟨placed', spec'⟩ := ih ⟨st.slotStart + canFit, st.remaining - canFit, false,
      st.blocks ++ [B], setVal st.dailyTotals k (st.dailyTotals k + canFit)⟩ hle'
    refine ⟨B :: placed', ?_⟩
    exact
      { blocksEq := by rw [spec'.blocksEq]; simp
        placedTask := by
          intro b hb
          rcases List.mem_cons.mp hb with rfl | hb
          · simp [hB]
          · exact spec'.placedTask b hb
        placedIn := by
          intro b hb
          have hmono := spec'.startMono
          rcases List.mem_cons.mp hb with rfl | hb
          · refine ⟨le_refl _, by simp [hB]; omega, ?_⟩
            simp only [hB, mkBlock_end]
            exact hmono
          · obtain ⟨h1, h2, h3⟩ := spec'.placedIn b hb
            exact ⟨by simp at h1 ⊢; omega, h2, h3⟩
        placedDurMin := by
          intro b hb
          rcases List.mem_cons.mp hb with rfl | hb
          · rw [hBdur]; exact hfit
          · exact spec'.placedDurMin b hb
        placedChain := by
          refine List.pairwise_cons.mpr ⟨?_, spec'.placedChain⟩
          intro b hb
          obtain ⟨h1, _, _⟩ := spec'.placedIn b hb
          simp only [hB, mkBlock_end]
          simpa using h1
        startMono := by
          have := spec'.startMono
          simp at this
          omega
        startLe := spec'.startLe
        totalsAt := by
          rw [spec'.totalsAt]
          simp [sumDur_cons, hBdur]
          omega
        totalsOther := by
          intro k' hk'
          rw [spec'.totalsOther k' hk']
          dsimp only
          rw [setVal_other _ _ _ _ hk']
        totalsCap := by
          have h1 := spec'.totalsCap
          dsimp only at h1
          rw [setVal_same] at h1
          have h2 : st.dailyTotals k + canFit ≤ maxDaily := by omega
          calc (fillSlot task minBlock maxBlock maxDaily k slotEnd fuel _).dailyTotals k
              ≤ max (st.dailyTotals k + canFit) maxDaily := h1
            _ = maxDaily := by omega
            _ ≤ max (st.dailyTotals k) maxDaily := le_max_right _ _
        remInt := by
          intro h
          rw [spec'.remInt h]
          simp [sumDur_cons, hBdur]
          omega
        remNonneg := by
          intro _
          exact spec'.remNonneg (by simp; omega)
        remNonintEmpty := by intro h; rw [h] at hIntT; cases hIntT
        remNonintOne := by intro h; rw [h] at hIntT; cases hIntT
        noPlaced := by intro h; cases h }

/-! ### Allocator machinery: one day's slot walk -/

/-- Interval containment by bounds. -/
def withinIv (a b : Interval) : Prop := b.start ≤ a.start ∧ a.«end» ≤ b.«end»

theorem withinIv_refl (a : Interval) : withinIv a a := ⟨le_refl _, le_refl _⟩

theorem withinIv_trans {a b c : Interval} (h1 : withinIv a b) (h2 : withinIv b c) :
    withinIv a c := ⟨le_trans h2.1 h1.1, le_trans h1.2 h2.2⟩

theorem withinIv_mem {a b : Interval} (h : withinIv a b) : ∀ p, memIv p a → memIv p b :=
  fun p hp => ⟨le_trans h.1 hp.1, lt_of_lt_of_le hp.2 h.2⟩

theorem ivDisjoint_symm {a b : Interval} (h : ivDisjoint a b) : ivDisjoint b a :=
  fun p hpb hpa => h p hpa hpb

theorem ivDisjoint_within_right {a c c0 : Interval} (hw : withinIv c c0)
    (h : ivDisjoint a c0) : ivDisjoint a c :=
  fun p hpa hpc => h p hpa (withinIv_mem hw p hpc)

theorem ivDisjoint_within_left {a a0 c : Interval} (hw : withinIv a a0)
    (h : ivDisjoint a0 c) : ivDisjoint a c :=
  fun p hpa hpc => h p (withinIv_mem hw p hpa) hpc

theorem blockChain_pairwise {l : List PlannedBlock}
    (h : l.Pairwise (fun a b => a.«end» ≤ b.start)) :
    l.Pairwise (fun a b => ivDisjoint (blockInterval a) (blockInterval b)) := by
  refine h.imp ?_
  intro a b hab p hpa hpb
  unfold memIv blockInterval at hpa hpb
  simp only [] at hpa hpb
  omega

theorem clipStart_ge (earliest : Int) (slot : Interval) : slot.start ≤ clipStart earliest slot := by
  unfold clipStart; split_ifs <;> omega

theorem clipEnd_le (deadline : Option Int) (slot : Interval) : clipEnd deadline slot ≤ slot.«end» := by
  unfold clipEnd; rcases deadline with _ | d
  · exact le_refl _
  · simp only []; split_ifs <;> omega

/-- Everything one walk of a day's slot list guarantees: added blocks lie
inside input slots, surviving slots are valid sub-intervals of input slots,
all are mutually disjoint, and the totals and `remaining` accounting holds. -/
structure SlotsSpec (task : Task) (minBlock maxDaily k : Int)
    (sl : List Interval) (remaining : Int) (blocks : List PlannedBlock) (totals : Int → Int)
    (r : DayState) (added : List PlannedBlock) : Prop where
  blocksEq : r.blocks = blocks ++ added
  addedTask : ∀ b ∈ added, b.taskId = task.id
  addedSub : ∀ b ∈ added, ∃ iv ∈ sl, withinIv (blockInterval b) iv
  addedValid : ∀ b ∈ added, b.start < b.«end»
  addedDurMin : ∀ b ∈ added, minBlock ≤ b.«end» - b.start
  addedPW : added.Pairwise (fun a b => ivDisjoint (blockInterval a) (blockInterval b))
  addedDisjSlots : ∀ b ∈ added, ∀ iv ∈ r.slots, ivDisjoint iv (blockInterval b)
  slotsSub : ∀ iv ∈ r.slots, ∃ iv0 ∈ sl, withinIv iv iv0 ∧ validIv iv
  slotsPW : r.slots.Pairwise ivDisjoint
  totalsAt : r.dailyTotals k = totals k + sumDur added
  totalsOther : ∀ k', k' ≠ k → r.dailyTotals k' = totals k'
  totalsCap : r.dailyTotals k ≤ max (totals k) maxDaily
  remInt : task.interruptible = true → r.remaining = remaining - sumDur added
  remNonneg : 0 ≤ remaining → 0 ≤ r.remaining
  remNonintEmpty : task.interruptible = false → added = [] → r.remaining = remaining
  remNonintOne : task.interruptible = false → added ≠ [] →
    ∃ b, added = [b] ∧ minBlock ≤ b.«end» - b.start ∧ b.«end» - b.start ≤ remaining ∧
      r.remaining = 0

theorem SlotsSpec.unchangedOf (task : Task) (minBlock maxDaily k : Int)
    (sl : List Interval) (remaining : Int) (firstBlock : Bool) (blocks : List PlannedBlock)
    (totals : Int → Int)
    (hpw : sl.Pairwise ivDisjoint) (hvalid : ∀ iv ∈ sl, validIv iv) :
    SlotsSpec task minBlock maxDaily k sl remaining blocks totals
      ⟨sl, remaining, firstBlock, blocks, totals⟩ [] where
  blocksEq := by simp
  addedTask := by simp
  addedSub := by simp
  addedValid := by simp
  addedDurMin := by simp
  addedPW := List.Pairwise.nil
  addedDisjSlots := by simp
  slotsSub := fun iv hiv => ⟨iv, hiv, withinIv_refl iv, hvalid iv hiv⟩
  slotsPW := hpw
  totalsAt := by simp [sumDur_nil]
  totalsOther := fun _ _ => rfl
  totalsCap := le_max_left _ _
  remInt := fun _ => by simp [sumDur_nil]
  remNonneg := fun h => h
  remNonintEmpty := fun _ _ => rfl
  remNonintOne := fun _ h => absurd rfl h

theorem processSlots_spec (task : Task) (minBlock maxBlock maxDaily earliest : Int)
    (deadline : Option Int) (k : Int) (hmin : 1 ≤ minBlock) :
    ∀ (sl : List Interval) (remaining : Int) (firstBlock : Bool)
      (blocks : List PlannedBlock) (totals : Int → Int),
      sl.Pairwise ivDisjoint → (∀ iv ∈ sl, validIv iv) →
      ∃ added, SlotsSpec task minBlock maxDaily k sl remaining blocks totals
        (processSlots task minBlock maxBlock maxDaily earliest deadline k
          sl remaining firstBlock blocks totals) added := by
  intro sl
  induction sl with
  | nil =>
    intro remaining firstBlock blocks totals hpw hvalid
    exact ⟨[], SlotsSpec.unchangedOf task minBlock maxDaily k [] remaining firstBlock blocks
      totals hpw hvalid⟩
  | cons slot rest ih =>
    intro remaining firstBlock blocks totals hpw hvalid
    have hpwTail : rest.Pairwise ivDisjoint := (List.pairwise_cons.mp hpw).2
    have hpwHead : ∀ iv ∈ rest, ivDisjoint slot iv := (List.pairwise_cons.mp hpw).1
    have hvalidTail : ∀ iv ∈ rest, validIv iv := fun iv hiv => hvalid iv (by simp [hiv])
    simp only [processSlots]
    by_cases h0 : remaining ≤ 0
    · rw [if_pos h0]
      exact ⟨[], SlotsSpec.unchangedOf task minBlock maxDaily k (slot :: rest) remaining
        firstBlock blocks totals hpw hvalid⟩
    rw [if_neg h0]
    by_cases hclip : clipEnd deadline slot ≤ clipStart earliest slot
    · rw [if_pos hclip]
      obtain ⟨added', spec'⟩ := ih remaining firstBlock blocks totals hpwTail hvalidTail
      set R := processSlots task minBlock maxBlock maxDaily earliest deadline k
        rest remaining firstBlock blocks totals with hR
      refine ⟨added', ?_⟩
      exact
        { blocksEq := spec'.blocksEq
          addedTask := spec'.addedTask
          addedSub := by
            intro b hb
            obtain ⟨iv, hiv, hw⟩ := spec'.addedSub b hb
            exact ⟨iv, by simp [hiv], hw⟩
          addedValid := spec'.addedValid
          addedDurMin := spec'.addedDurMin
          addedPW := spec'.addedPW
          addedDisjSlots := by
            intro b hb iv hiv
            rcases List.mem_cons.mp hiv with rfl | hiv
            · obtain ⟨iv0, hiv0, hw⟩ := spec'.addedSub b hb
              exact ivDisjoint_within_right hw (hpwHead iv0 hiv0)
            · exact spec'.addedDisjSlots b hb iv hiv
          slotsSub := by
            intro iv hiv
            rcases List.mem_cons.mp hiv with rfl | hiv
            · exact ⟨iv, by simp, withinIv_refl iv, hvalid iv (by simp)⟩
            · obtain ⟨iv0, hiv0, hw, hv⟩ := spec'.slotsSub iv hiv
              exact ⟨iv0, by simp [hiv0], hw, hv⟩
          slotsPW := by
            refine List.pairwise_cons.mpr ⟨?_, spec'.slotsPW⟩
            intro iv hiv
            obtain ⟨iv0, hiv0, hw, _⟩ := spec'.slotsSub iv hiv
            exact ivDisjoint_within_right hw (hpwHead iv0 hiv0)
          totalsAt := spec'.totalsAt
          totalsOther := spec'.totalsOther
          totalsCap := spec'.totalsCap
          remInt := spec'.remInt
          remNonneg := spec'.remNonneg
          remNonintEmpty := spec'.remNonintEmpty
          remNonintOne := spec'.remNonintOne }
    rw [if_neg hclip]
    push_neg at hclip
    have hleClip : clipStart earliest slot ≤ clipEnd deadline slot := le_of_lt hclip
    obtain ⟨placedF, specF⟩ := fillSlot_spec task minBlock maxBlock maxDaily k
      (clipEnd deadline slot) hmin (remaining.toNat + 1)
      ⟨clipStart earliest slot, remaining, firstBlock, blocks, totals⟩ hleClip
    set F := fillSlot task minBlock maxBlock maxDaily k (clipEnd deadline slot)
      (remaining.toNat + 1)
      ⟨clipStart earliest slot, remaining, firstBlock, blocks, totals⟩ with hF
    have hFblocks : F.blocks = blocks ++ placedF := specF.blocksEq
    have hFstartMono : clipStart earliest slot ≤ F.slotStart := specF.startMono
    have hFstartLe : F.slotStart ≤ clipEnd deadline slot := specF.startLe
    have hPlacedInSlot : ∀ b ∈ placedF, withinIv (blockInterval b) slot := by
      intro b hb
      obtain ⟨h1, h2, h3⟩ := specF.placedIn b hb
      refine ⟨?_, ?_⟩
      · exact le_trans (clipStart_ge earliest slot) (le_trans (by exact h1) (le_refl _))
      · exact le_trans (le_trans h3 hFstartLe) (clipEnd_le deadline slot)
    have hPlacedDisjF : ∀ b ∈ placedF, ∀ p, memIv p (blockInterval b) → p < F.slotStart := by
      intro b hb p hp
      obtain ⟨_, _, h3⟩ := specF.placedIn b hb
      unfold memIv blockInterval at hp
      simp only [] at hp
      omega
    obtain ⟨added', spec'⟩ := ih F.remaining F.firstBlock F.blocks F.dailyTotals
      hpwTail hvalidTail
    set R := processSlots task minBlock maxBlock maxDaily earliest deadline k
      rest F.remaining F.firstBlock F.blocks F.dailyTotals with hR
    have haddedSub : ∀ b ∈ placedF ++ added',
        ∃ iv ∈ slot :: rest, withinIv (blockInterval b) iv := by
      intro b hb
      rcases List.mem_append.mp hb with hb | hb
      · exact ⟨slot, by simp, hPlacedInSlot b hb⟩
      · obtain ⟨iv, hiv, hw⟩ := spec'.addedSub b hb
        exact ⟨iv, by simp [hiv], hw⟩
    have haddedTask : ∀ b ∈ placedF ++ added', b.taskId = task.id := by
      intro b hb
      rcases List.mem_append.mp hb with hb | hb
      · exact specF.placedTask b hb
      · exact spec'.addedTask b hb
    have haddedValid : ∀ b ∈ placedF ++ added', b.start < b.«end» := by
      intro b hb
      rcases List.mem_append.mp hb with hb | hb
      · exact (specF.placedIn b hb).2.1
      · exact spec'.addedValid b hb
    have haddedDurMin : ∀ b ∈ placedF ++ added', minBlock ≤ b.«end» - b.start := by
      intro b hb
      rcases List.mem_append.mp hb with hb | hb
      · exact specF.placedDurMin b hb
      · exact spec'.addedDurMin b hb
    have haddedPW : (placedF ++ added').Pairwise
        (fun a b => ivDisjoint (blockInterval a) (blockInterval b)) := by
      rw [List.pairwise_append]
      refine ⟨blockChain_pairwise specF.placedChain, spec'.addedPW, ?_⟩
      intro a ha b hb
      obtain ⟨iv0, hiv0, hw0⟩ := spec'.addedSub b hb
      exact ivDisjoint_within_left (hPlacedInSlot a ha)
        (ivDisjoint_within_right hw0 (hpwHead iv0 hiv0))
    have hRslotsDisjPlaced : ∀ b ∈ placedF, ∀ iv ∈ R.slots, ivDisjoint iv (blockInterval b) := by
      intro b hb iv hiv
      obtain ⟨iv0, hiv0, hw, _⟩ := spec'.slotsSub iv hiv
      exact ivDisjoint_within_left hw
        (ivDisjoint_symm (ivDisjoint_within_left (hPlacedInSlot b hb) (hpwHead iv0 hiv0)))
    have htotalsAt : R.dailyTotals k = totals k + sumDur (placedF ++ added') := by
      rw [spec'.totalsAt, specF.totalsAt, sumDur_append]
      ring
    have htotalsOther : ∀ k', k' ≠ k → R.dailyTotals k' = totals k' := by
      intro k' hk'
      rw [spec'.totalsOther k' hk', specF.totalsOther k' hk']
    have htotalsCap : R.dailyTotals k ≤ max (totals k) maxDaily := by
      have h1 := spec'.totalsCap
      have h2 := specF.totalsCap
      have h3 : max (F.dailyTotals k) maxDaily ≤ max (max (totals k) maxDaily) maxDaily :=
        max_le_max h2 (le_refl _)
      calc R.dailyTotals k ≤ max (F.dailyTotals k) maxDaily := h1
        _ ≤ max (max (totals k) maxDaily) maxDaily := h3
        _ = max (totals k) maxDaily := by rw [max_assoc, max_self]
    have hremInt : task.interruptible = true →
        R.remaining = remaining - sumDur (placedF ++ added') := by
      intro h
      rw [spec'.remInt h, specF.remInt h, sumDur_append]
      ring
    have hremNonneg : 0 ≤ remaining → 0 ≤ R.remaining := by
      intro h
      exact spec'.remNonneg (specF.remNonneg h)
    have hremNonintEmpty : task.interruptible = false → placedF ++ added' = [] →
        R.remaining = remaining := by
      intro h he
      rw [List.append_eq_nil] at he
      have hF0 := specF.noPlaced he.1
      rw [spec'.remNonintEmpty h he.2, hF0]
    have hremNonintOne : task.interruptible = false → placedF ++ added' ≠ [] →
        ∃ b, placedF ++ added' = [b] ∧ minBlock ≤ b.«end» - b.start ∧
          b.«end» - b.start ≤ remaining ∧ R.remaining = 0 := by
      intro h hne
      by_cases hpe : placedF = []
      · subst hpe
        simp only [List.nil_append] at hne ⊢
        obtain ⟨b, hb1, hb2, hb3, hb4⟩ := spec'.remNonintOne h hne
        have hF0 := specF.noPlaced rfl
        rw [hF0] at hb3
        exact ⟨b, hb1, hb2, hb3, hb4⟩
      · obtain ⟨b, hb1, hb2, hb3, hb4⟩ := specF.remNonintOne h hpe
        have hadded'nil : added' = [] := by
          by_contra hne'
          obtain ⟨b', _, hb2', hb3', _⟩ := spec'.remNonintOne h hne'
          rw [hb4] at hb3'
          omega
        subst hadded'nil
        rw [hb1]
        refine ⟨b, by simp, hb2, hb3, ?_⟩
        rw [spec'.remNonintEmpty h rfl, hb4]
    by_cases hsplice : clipEnd deadline slot ≤ F.slotStart
    · rw [if_pos hsplice]
      refine ⟨placedF ++ added', ?_⟩
      exact
        { blocksEq := by rw [spec'.blocksEq, hFblocks, List.append_assoc]
          addedTask := haddedTask
          addedSub := haddedSub
          addedValid := haddedValid
          addedDurMin := haddedDurMin
          addedPW := haddedPW
          addedDisjSlots := by
            intro b hb iv hiv
            rcases List.mem_append.mp hb with hb | hb
            · exact hRslotsDisjPlaced b hb iv hiv
            · exact spec'.addedDisjSlots b hb iv hiv
          slotsSub := by
            intro iv hiv
            obtain ⟨iv0, hiv0, hw, hv⟩ := spec'.slotsSub iv hiv
            exact ⟨iv0, by simp [hiv0], hw, hv⟩
          slotsPW := spec'.slotsPW
          totalsAt := htotalsAt
          totalsOther := htotalsOther
          totalsCap := htotalsCap
          remInt := hremInt
          remNonneg := hremNonneg
          remNonintEmpty := hremNonintEmpty
          remNonintOne := hremNonintOne }
    · rw [if_neg hsplice]
      push_neg at hsplice
      have hNewValid : validIv ⟨F.slotStart, clipEnd deadline slot⟩ := hsplice
      have hNewWithin : withinIv ⟨F.slotStart, clipEnd deadline slot⟩ slot :=
        ⟨le_trans (clipStart_ge earliest slot) hFstartMono, clipEnd_le deadline slot⟩
      refine ⟨placedF ++ added', ?_⟩
      exact
        { blocksEq := by rw [spec'.blocksEq, hFblocks, List.append_assoc]
          addedTask := haddedTask
          addedSub := haddedSub
          addedValid := haddedValid
          addedDurMin := haddedDurMin
          addedPW := haddedPW
          addedDisjSlots := by
            intro b hb iv hiv
            rcases List.mem_cons.mp hiv with rfl | hiv
            · rcases List.mem_append.mp hb with hb | hb
              · intro p hpIv hpB
                have := hPlacedDisjF b hb p hpB
                unfold memIv at hpIv
                simp only [] at hpIv
                omega
              · obtain ⟨iv0, hiv0, hw0⟩ := spec'.addedSub b hb
                exact ivDisjoint_within_left hNewWithin
                  (ivDisjoint_within_right hw0 (hpwHead iv0 hiv0))
            · rcases List.mem_append.mp hb with hb | hb
              · exact hRslotsDisjPlaced b hb iv hiv
              · exact spec'.addedDisjSlots b hb iv hiv
          slotsSub := by
            intro iv hiv
            rcases List.mem_cons.mp hiv with rfl | hiv
            · exact ⟨slot, by simp, hNewWithin, hNewValid⟩
            · obtain ⟨iv0, hiv0, hw, hv⟩ := spec'.slotsSub iv hiv
              exact ⟨iv0, by simp [hiv0], hw, hv⟩
          slotsPW := by
            refine List.pairwise_cons.mpr ⟨?_, spec'.slotsPW⟩
            intro iv hiv
            obtain ⟨iv0, hiv0, hw, _⟩ := spec'.slotsSub iv hiv
            exact ivDisjoint_within_left hNewWithin
              (ivDisjoint_within_right hw (hpwHead iv0 hiv0))
          totalsAt := htotalsAt
          totalsOther := htotalsOther
          totalsCap := htotalsCap
          remInt := hremInt
          remNonneg := hremNonneg
          remNonintEmpty := hremNonintEmpty
          remNonintOne := hremNonintOne }

/-! ### Day windows and structural goodness -/

/-- Start of the working window of day `k`. -/
def dayWindowStart (s : Settings) (k : Int) : Int := 1440 * k + s.workDayStart

/-- End of the working window of day `k`. -/
def dayWindowEnd (s : Settings) (k : Int) : Int := 1440 * k + s.workDayEnd

/-- Structural sanity of the settings needed to keep each working window
inside its own calendar day (`HH:MM` fields denote at most `23:59`). -/
def settingsOK (s : Settings) : Prop := 0 ≤ s.workDayStart ∧ s.workDayEnd ≤ 1440

/-- An interval that is valid, inside day `k`'s working window, and shares no
time point with the lunch break, any busy event, or any locked block. -/
structure GoodIv (s : Settings) (events : List CalendarEvent)
    (lockedBlocks : List PlannedBlock) (k : Int) (iv : Interval) : Prop where
  valid : iv.start < iv.«end»
  winLo : dayWindowStart s k ≤ iv.start
  winHi : iv.«end» ≤ dayWindowEnd s k
  noLunch : ∀ p, memIv p iv → ¬ (1440 * k + s.lunchStart ≤ p ∧ p < 1440 * k + s.lunchEnd)
  noBusy : ∀ e ∈ events, e.busy = true → ∀ p, memIv p iv → ¬ memIv p (eventInterval e)
  noLocked : ∀ b ∈ lockedBlocks, ∀ p, memIv p iv → ¬ memIv p (blockInterval b)

theorem GoodIv.mono {s : Settings} {events : List CalendarEvent}
    {lockedBlocks : List PlannedBlock} {k : Int} {iv iv' : Interval}
    (hg : GoodIv s events lockedBlocks k iv) (hw : withinIv iv' iv) (hv : validIv iv') :
    GoodIv s events lockedBlocks k iv' where
  valid := hv
  winLo := le_trans hg.winLo hw.1
  winHi := le_trans hw.2 hg.winHi
  noLunch := fun p hp => hg.noLunch p (withinIv_mem hw p hp)
  noBusy := fun e he hb p hp => hg.noBusy e he hb p (withinIv_mem hw p hp)
  noLocked := fun b hb p hp => hg.noLocked b hb p (withinIv_mem hw p hp)

theorem goodIv_mem_dayKey {s : Settings} {events : List CalendarEvent}
    {lockedBlocks : List PlannedBlock} {k : Int} {iv : Interval}
    (hs : settingsOK s) (hg : GoodIv s events lockedBlocks k iv) :
    ∀ p, memIv p iv → dayKey p = k := by
  intro p hp
  have h1 := hg.winLo
  have h2 := hg.winHi
  unfold dayWindowStart at h1
  unfold dayWindowEnd at h2
  unfold settingsOK at hs
  unfold memIv at hp
  unfold dayKey
  omega

theorem goodIv_disj_of_ne {s : Settings} {events : List CalendarEvent}
    {lockedBlocks : List PlannedBlock} {k k' : Int} {iv iv' : Interval}
    (hs : settingsOK s) (hg : GoodIv s events lockedBlocks k iv)
    (hg' : GoodIv s events lockedBlocks k' iv') (hne : k ≠ k') :
    ivDisjoint iv iv' := by
  intro p hp hp'
  have h1 := goodIv_mem_dayKey hs hg p hp
  have h2 := goodIv_mem_dayKey hs hg' p hp'
  exact hne (h1 ▸ h2 ▸ rfl)

/-! ### Per-day block minutes -/

/-- Total `minutesBetween` duration of the blocks whose start falls on day `k`
(the property C4 measures). -/
def dayMinutes (blocks : List PlannedBlock) (k : Int) : Int :=
  ((blocks.filter (fun b => dayKey b.start = k)).map
    (fun b => minutesBetween b.start b.«end»)).sum

theorem dayMinutes_nil (k : Int) : dayMinutes [] k = 0 := rfl

theorem dayMinutes_cons (b : PlannedBlock) (l : List PlannedBlock) (k : Int) :
    dayMinutes (b :: l) k =
      (if dayKey b.start = k then minutesBetween b.start b.«end» else 0) + dayMinutes l k := by
  unfold dayMinutes
  rw [List.filter_cons]
  by_cases hk : dayKey b.start = k
  · simp [hk]
  · simp [hk]

theorem dayMinutes_append (l1 l2 : List PlannedBlock) (k : Int) :
    dayMinutes (l1 ++ l2) k = dayMinutes l1 k + dayMinutes l2 k := by
  induction l1 with
  | nil => simp [dayMinutes_nil, dayMinutes]
  | cons b tl ih =>
    rw [List.cons_append, dayMinutes_cons, dayMinutes_cons, ih]
    ring

theorem dayMinutes_eq_sumDur (l : List PlannedBlock) (k : Int)
    (h : ∀ b ∈ l, dayKey b.start = k ∧ b.start < b.«end») :
    dayMinutes l k = sumDur l := by
  induction l with
  | nil => rfl
  | cons b tl ih =>
    obtain ⟨hk, hv⟩ := h b (by simp)
    rw [dayMinutes_cons, sumDur_cons, if_pos hk, ih (fun x hx => h x (by simp [hx]))]
    unfold minutesBetween
    omega

theorem dayMinutes_eq_zero (l : List PlannedBlock) (k : Int)
    (h : ∀ b ∈ l, dayKey b.start ≠ k) :
    dayMinutes l k = 0 := by
  induction l with
  | nil => rfl
  | cons b tl ih =>
    rw [dayMinutes_cons, if_neg (h b (by simp)), ih (fun x hx => h x (by simp [hx]))]
    ring

theorem minutesByDay_eq_dayMinutes (blocks : List PlannedBlock) (k : Int) :
    minutesByDay blocks k = dayMinutes blocks k := by
  unfold minutesByDay
  suffices h : ∀ (g : Int → Int),
      (blocks.foldl (fun totals block => setVal totals (dayKey block.start)
        (totals (dayKey block.start) + minutesBetween block.start block.«end»)) g) k
      = g k + dayMinutes blocks k by
    rw [h (fun _ => 0)]
    ring
  induction blocks with
  | nil => intro g; simp [dayMinutes_nil]
  | cons b tl ih =>
    intro g
    rw [List.foldl_cons, ih, dayMinutes_cons]
    by_cases hk : dayKey b.start = k
    · rw [if_pos hk]
      subst hk
      rw [setVal_same]
      ring
    · rw [if_neg hk, setVal_other _ _ _ _ (by exact fun h => hk h.symm)]
      ring

/-! ### Free-slot builder correctness -/

theorem mem_subtractInterval_valid {b c x : Interval} (hb : validIv b)
    (hx : x ∈ subtractInterval b c) : validIv x := by
  rw [mem_subtractInterval_iff] at hx
  rcases hx with ⟨_, rfl⟩ | ⟨_, h1, rfl⟩ | ⟨_, h1, rfl⟩
  · exact hb
  · exact h1
  · exact h1

theorem subtractIntervals_valid (cuts bases : List Interval)
    (hb : ∀ b ∈ bases, validIv b) :
    ∀ x ∈ subtractIntervals bases cuts, validIv x := by
  induction cuts generalizing bases with
  | nil => exact hb
  | cons c cs ih =>
    rw [subtractIntervals_cons]
    refine ih _ ?_
    intro x hx
    rw [List.mem_flatMap] at hx
    obtain ⟨b, hbm, hxb⟩ := hx
    exact mem_subtractInterval_valid (hb b hbm) hxb

theorem insertionSort_pairwise_ivDisjoint {l : List Interval}
    (h : l.Pairwise ivDisjoint) :
    (List.insertionSort intervalLE l).Pairwise ivDisjoint := by
  have hperm := List.perm_insertionSort intervalLE l
  exact (List.Perm.pairwise_iff (fun h => ivDisjoint_symm h) hperm).mpr h

theorem buildFreeSlots_spec (startDay : Int) (settings : Settings)
    (events : List CalendarEvent) (lockedBlocks : List PlannedBlock) :
    ∀ k, (∀ iv ∈ buildFreeSlots startDay settings events lockedBlocks k,
        GoodIv settings events lockedBlocks k iv) ∧
      (buildFreeSlots startDay settings events lockedBlocks k).Pairwise ivDisjoint := by
  unfold buildFreeSlots
  generalize List.range settings.planningHorizonDays.toNat = offsets
  set busyIntervals :=
    (events.filter (fun e => e.busy)).map eventInterval ++ lockedBlocks.map blockInterval
    with hbusy
  have hbusyMem : ∀ biv ∈ busyIntervals,
      (∀ p, memIv p biv →
        ((∃ e ∈ events, e.busy = true ∧ memIv p (eventInterval e)) ∨
         (∃ b ∈ lockedBlocks, memIv p (blockInterval b)))) := by
    intro biv hbiv p hp
    rw [hbusy, List.mem_append] at hbiv
    rcases hbiv with hbiv | hbiv
    · rw [List.mem_map] at hbiv
      obtain ⟨e, he, rfl⟩ := hbiv
      rw [List.mem_filter] at he
      exact Or.inl ⟨e, he.1, by simpa using he.2, hp⟩
    · rw [List.mem_map] at hbiv
      obtain ⟨b, hbm, rfl⟩ := hbiv
      exact Or.inr ⟨b, hbm, hp⟩
  have hbusyAll : ∀ e ∈ events, e.busy = true → eventInterval e ∈ busyIntervals := by
    intro e he hb
    rw [hbusy, List.mem_append]
    exact Or.inl (List.mem_map.mpr ⟨e, List.mem_filter.mpr ⟨he, by simp [hb]⟩, rfl⟩)
  have hlockedAll : ∀ b ∈ lockedBlocks, blockInterval b ∈ busyIntervals := by
    intro b hbm
    rw [hbusy, List.mem_append]
    exact Or.inr (List.mem_map.mpr ⟨b, hbm, rfl⟩)
  suffices h : ∀ (m : Int → List Interval),
      (∀ k, (∀ iv ∈ m k, GoodIv settings events lockedBlocks k iv) ∧
        (m k).Pairwise ivDisjoint) →
      ∀ k, (∀ iv ∈ offsets.foldl (fun slotsByDay offset =>
          let day := addDays startDay offset
          let dayStart := combineDateAndTime day settings.workDayStart
          let dayEnd := combineDateAndTime day settings.workDayEnd
          match createInterval dayStart dayEnd with
          | none => setVal slotsByDay (dayKey day) []
          | some workingInterval =>
            let lunchCuts :=
              (createInterval (combineDateAndTime day settings.lunchStart)
                (combineDateAndTime day settings.lunchEnd)).toList
            let cuts := lunchCuts ++ busyIntervals.filterMap (fun busy =>
              let cutStart := if busy.start < dayStart then dayStart else busy.start
              let cutEnd := if dayEnd < busy.«end» then dayEnd else busy.«end»
              createInterval cutStart cutEnd)
            let free := List.insertionSort intervalLE
              (subtractIntervals [workingInterval] cuts)
            setVal slotsByDay (dayKey day) free) m k,
          GoodIv settings events lockedBlocks k iv) ∧
        (offsets.foldl _ m k).Pairwise ivDisjoint by
    exact h (fun _ => []) (fun k => ⟨by simp, List.Pairwise.nil⟩)
  induction offsets with
  | nil => intro m hm; exact hm
  | cons o os ih =>
    intro m hm
    rw [List.foldl_cons]
    apply ih
    intro k
    dsimp only
    set day := addDays startDay o with hday
    by_cases hk : k = dayKey day
    · subst hk
      rcases hci : createInterval (combineDateAndTime day settings.workDayStart)
          (combineDateAndTime day settings.workDayEnd) with _ | working
      · dsimp only
        constructor
        · intro iv hiv
          rw [setVal_same] at hiv
          simp at hiv
        · rw [setVal_same]
          exact List.Pairwise.nil
      · dsimp only
        have hwing : validIv working ∧
            working.start = combineDateAndTime day settings.workDayStart ∧
            working.«end» = combineDateAndTime day settings.workDayEnd := by
          unfold createInterval at hci
          by_cases hvi : combineDateAndTime day settings.workDayEnd ≤
              combineDateAndTime day settings.workDayStart
          · rw [if_pos hvi] at hci; cases hci
          · rw [if_neg hvi] at hci
            injection hci with h
            subst h
            refine ⟨?_, rfl, rfl⟩
            unfold validIv
            dsimp only
            omega
        have hcds : combineDateAndTime day settings.workDayStart =
            dayWindowStart settings (dayKey day) := rfl
        have hcde : combineDateAndTime day settings.workDayEnd =
            dayWindowEnd settings (dayKey day) := rfl
        set cuts := (createInterval (combineDateAndTime day settings.lunchStart)
            (combineDateAndTime day settings.lunchEnd)).toList
          ++ busyIntervals.filterMap (fun busy =>
            createInterval
              (if busy.start < combineDateAndTime day settings.workDayStart
                then combineDateAndTime day settings.workDayStart else busy.start)
              (if combineDateAndTime day settings.workDayEnd < busy.«end»
                then combineDateAndTime day settings.workDayEnd else busy.«end»)) with hcuts
        have hcutsValid : ∀ c ∈ cuts, validIv c := by
          intro c hc
          rw [hcuts, List.mem_append] at hc
          rcases hc with hc | hc
          · rcases hcl : createInterval (combineDateAndTime day settings.lunchStart)
                (combineDateAndTime day settings.lunchEnd) with _ | lunch
            · rw [hcl] at hc; simp at hc
            · rw [hcl] at hc
              simp at hc
              subst hc
              unfold createInterval at hcl
              by_cases hvi : combineDateAndTime day settings.lunchEnd ≤
                  combineDateAndTime day settings.lunchStart
              · rw [if_pos hvi] at hcl; cases hcl
              · rw [if_neg hvi] at hcl
                injection hcl with h
                subst h
                unfold validIv
                dsimp only
                omega
          · rw [List.mem_filterMap] at hc
            obtain ⟨biv, _, hsome⟩ := hc
            unfold createInterval at hsome
            by_cases hvi : (if combineDateAndTime day settings.workDayEnd < biv.«end»
                then combineDateAndTime day settings.workDayEnd else biv.«end») ≤
                (if biv.start < combineDateAndTime day settings.workDayStart
                then combineDateAndTime day settings.workDayStart else biv.start)
            · rw [if_pos hvi] at hsome; cases hsome
            · rw [if_neg hvi] at hsome
              injection hsome with h
              subst h
              unfold validIv
              dsimp only
              omega
        constructor
        · intro iv hiv
          rw [setVal_same] at hiv
          have hivmem : iv ∈ subtractIntervals [working] cuts :=
            (List.perm_insertionSort intervalLE _).mem_iff.mp hiv
          have hval : validIv iv :=
            subtractIntervals_valid cuts [working]
              (by intro b hb; rw [List.mem_singleton] at hb; subst hb; exact hwing.1) iv hivmem
          have hcov : ∀ p, memIv p iv →
              memIv p working ∧ ∀ c ∈ cuts, ¬ memIv p c := by
            intro p hp
            have : coveredBy p (subtractIntervals [working] cuts) := ⟨iv, hivmem, hp⟩
            rw [coveredBy_subtractIntervals] at this
            obtain ⟨⟨w, hw, hmw⟩, hcuts'⟩ := this
            rw [List.mem_singleton] at hw
            subst hw
            exact ⟨hmw, hcuts'⟩
          obtain ⟨hsub, _⟩ := subtractIntervals_subset cuts [working] hivmem
          refine
            { valid := hval
              winLo := ?_
              winHi := ?_
              noLunch := ?_
              noBusy := ?_
              noLocked := ?_ }
          · have h1 := (hcov iv.start ⟨le_refl _, hval⟩).1
            unfold memIv at h1
            rw [hwing.2.1, hcds] at h1
            exact h1.1
          · by_contra hcon
            push_neg at hcon
            have h1 := (hcov (iv.«end» - 1) ⟨by unfold validIv at hval; omega, by omega⟩).1
            unfold memIv at h1
            rw [hwing.2.2, hcde] at h1
            omega
          · intro p hp hlun
            obtain ⟨hw, hc⟩ := hcov p hp
            have hlv : createInterval (combineDateAndTime day settings.lunchStart)
                (combineDateAndTime day settings.lunchEnd) =
                some ⟨combineDateAndTime day settings.lunchStart,
                  combineDateAndTime day settings.lunchEnd⟩ := by
              unfold createInterval
              rw [if_neg (by
                show ¬ (combineDateAndTime day settings.lunchEnd ≤
                  combineDateAndTime day settings.lunchStart)
                have : combineDateAndTime day settings.lunchStart =
                  1440 * dayKey day + settings.lunchStart := rfl
                have : combineDateAndTime day settings.lunchEnd =
                  1440 * dayKey day + settings.lunchEnd := rfl
                omega)]
            have hlmem : (⟨combineDateAndTime day settings.lunchStart,
                combineDateAndTime day settings.lunchEnd⟩ : Interval) ∈ cuts := by
              rw [hcuts, List.mem_append]
              left
              rw [hlv]
              simp
            refine hc _ hlmem ⟨?_, ?_⟩
            · show combineDateAndTime day settings.lunchStart ≤ p
              have : combineDateAndTime day settings.lunchStart =
                1440 * dayKey day + settings.lunchStart := rfl
              omega
            · show p < combineDateAndTime day settings.lunchEnd
              have : combineDateAndTime day settings.lunchEnd =
                1440 * dayKey day + settings.lunchEnd := rfl
              omega
          · intro e he hb p hp hpe
            obtain ⟨hw, hc⟩ := hcov p hp
            have hwmem := hw
            unfold memIv at hwmem hpe
            rw [hwing.2.1] at hwmem
            rw [hwing.2.2] at hwmem
            have hcut : (⟨if (eventInterval e).start <
                combineDateAndTime day settings.workDayStart
                then combineDateAndTime day settings.workDayStart
                else (eventInterval e).start,
                if combineDateAndTime day settings.workDayEnd < (eventInterval e).«end»
                then combineDateAndTime day settings.workDayEnd
                else (eventInterval e).«end»⟩ : Interval) ∈ cuts := by
              rw [hcuts, List.mem_append]
              right
              rw [List.mem_filterMap]
              refine ⟨eventInterval e, hbusyAll e he hb, ?_⟩
              unfold createInterval
              rw [if_neg (by split_ifs <;> omega)]
            refine hc _ hcut ⟨?_, ?_⟩
            · show (if (eventInterval e).start <
                combineDateAndTime day settings.workDayStart
                then combineDateAndTime day settings.workDayStart
                else (eventInterval e).start) ≤ p
              split_ifs <;> omega
            · show p < (if combineDateAndTime day settings.workDayEnd <
                (eventInterval e).«end»
                then combineDateAndTime day settings.workDayEnd
                else (eventInterval e).«end»)
              split_ifs <;> omega
          · intro b hbm p hp hpb
            obtain ⟨hw, hc⟩ := hcov p hp
            have hwmem := hw
            unfold memIv at hwmem hpb
            rw [hwing.2.1] at hwmem
            rw [hwing.2.2] at hwmem
            have hcut : (⟨if (blockInterval b).start <
                combineDateAndTime day settings.workDayStart
                then combineDateAndTime day settings.workDayStart
                else (blockInterval b).start,
                if combineDateAndTime day settings.workDayEnd < (blockInterval b).«end»
                then combineDateAndTime day settings.workDayEnd
                else (blockInterval b).«end»⟩ : Interval) ∈ cuts := by
              rw [hcuts, List.mem_append]
              right
              rw [List.mem_filterMap]
              refine ⟨blockInterval b, hlockedAll b hbm, ?_⟩
              unfold createInterval
              rw [if_neg (by split_ifs <;> omega)]
            refine hc _ hcut ⟨?_, ?_⟩
            · show (if (blockInterval b).start <
                combineDateAndTime day settings.workDayStart
                then combineDateAndTime day settings.workDayStart
                else (blockInterval b).start) ≤ p
              split_ifs <;> omega
            · show p < (if combineDateAndTime day settings.workDayEnd <
                (blockInterval b).«end»
                then combineDateAndTime day settings.workDayEnd
                else (blockInterval b).«end»)
              split_ifs <;> omega
        · rw [setVal_same]
          exact insertionSort_pairwise_ivDisjoint
            (subtractIntervals_pairwise cuts [working] (by simp) hcutsValid)
    · rcases hci : createInterval (combineDateAndTime day settings.workDayStart)
          (combineDateAndTime day settings.workDayEnd) with _ | working <;>
        dsimp only <;>
        rw [setVal_other _ _ _ _ hk] <;>
        exact hm k

/-! ### The run-wide allocator invariant -/

/-- Invariant threaded through the whole allocation run: every remaining free
slot and every newly placed block is structurally good for its day, slots and
new blocks are mutually disjoint, and the daily totals books match the placed
blocks and respect the cap (unless locked blocks alone already exceed it). -/
structure Inv (settings : Settings) (events : List CalendarEvent)
    (lockedBlocks : List PlannedBlock)
    (slots : Int → List Interval) (newBlocks : List PlannedBlock)
    (totals : Int → Int) : Prop where
  slotGood : ∀ k, ∀ iv ∈ slots k, GoodIv settings events lockedBlocks k iv
  slotPW : ∀ k, (slots k).Pairwise ivDisjoint
  slotNew : ∀ k, ∀ iv ∈ slots k, ∀ b ∈ newBlocks, ivDisjoint iv (blockInterval b)
  newGood : ∀ b ∈ newBlocks,
    GoodIv settings events lockedBlocks (dayKey b.start) (blockInterval b)
  newPW : newBlocks.Pairwise (fun a b => ivDisjoint (blockInterval a) (blockInterval b))
  totalsEq : ∀ k, totals k = minutesByDay lockedBlocks k + dayMinutes newBlocks k
  totalsCap : ∀ k, totals k ≤ max (minutesByDay lockedBlocks k) settings.maxDailyMinutes

theorem inv_initial (settings : Settings) (events : List CalendarEvent)
    (lockedBlocks : List PlannedBlock) (now : Int) :
    Inv settings events lockedBlocks
      (buildFreeSlots (startOfDay now) settings events lockedBlocks) []
      (minutesByDay lockedBlocks) where
  slotGood := fun k => (buildFreeSlots_spec (startOfDay now) settings events lockedBlocks k).1
  slotPW := fun k => (buildFreeSlots_spec (startOfDay now) settings events lockedBlocks k).2
  slotNew := by simp
  newGood := by simp
  newPW := List.Pairwise.nil
  totalsEq := fun k => by rw [dayMinutes_nil]; ring
  totalsCap := fun k => le_max_left _ _

/-- What processing one or more horizon days for one task guarantees. -/
structure DaysSpec (settings : Settings) (events : List CalendarEvent)
    (lockedBlocks : List PlannedBlock) (task : Task) (minBlock : Int)
    (st st' : TaskState) (new added : List PlannedBlock) : Prop where
  split : st'.blocks = lockedBlocks ++ (new ++ added)
  inv : Inv settings events lockedBlocks st'.slots (new ++ added) st'.dailyTotals
  addedTask : ∀ b ∈ added, b.taskId = task.id
  addedDurMin : ∀ b ∈ added, minBlock ≤ b.«end» - b.start
  remInt : task.interruptible = true → st'.remaining = st.remaining - sumDur added
  remNonneg : 0 ≤ st.remaining → 0 ≤ st'.remaining
  remNonintEmpty : task.interruptible = false → added = [] → st'.remaining = st.remaining
  remNonintOne : task.interruptible = false → added ≠ [] →
    ∃ b, added = [b] ∧ minBlock ≤ b.«end» - b.start ∧ b.«end» - b.start ≤ st.remaining ∧
      st'.remaining = 0

theorem DaysSpec.sameState (settings : Settings) (events : List CalendarEvent)
    (lockedBlocks : List PlannedBlock) (task : Task) (minBlock : Int)
    (st : TaskState) (new : List PlannedBlock)
    (hsplit : st.blocks = lockedBlocks ++ new)
    (hinv : Inv settings events lockedBlocks st.slots new st.dailyTotals) :
    DaysSpec settings events lockedBlocks task minBlock st st new [] where
  split := by rw [hsplit, List.append_nil]
  inv := by rw [List.append_nil]; exact hinv
  addedTask := by simp
  addedDurMin := by simp
  remInt := fun _ => by simp [sumDur_nil]
  remNonneg := fun h => h
  remNonintEmpty := fun _ _ => rfl
  remNonintOne := fun _ h => absurd rfl h

theorem processDay_spec (settings : Settings) (events : List CalendarEvent)
    (lockedBlocks : List PlannedBlock) (task : Task)
    (minBlock maxBlock earliest : Int) (deadline : Option Int) (startDay : Int) (offset : Nat)
    (hmin : 1 ≤ minBlock) (hs : settingsOK settings)
    (st : TaskState) (new : List PlannedBlock)
    (hsplit : st.blocks = lockedBlocks ++ new)
    (hinv : Inv settings events lockedBlocks st.slots new st.dailyTotals) :
    ∃ added, DaysSpec settings events lockedBlocks task minBlock st
      (processDay task minBlock maxBlock earliest deadline settings startDay offset st).1
      new added := by
  unfold processDay
  dsimp only
  by_cases he : (st.slots (dayKey (addDays startDay offset))).isEmpty
  · rw [if_pos he]
    exact ⟨[], DaysSpec.sameState settings events lockedBlocks task minBlock st new
      hsplit hinv⟩
  rw [if_neg he]
  by_cases hd1 : combineDateAndTime (addDays startDay offset) settings.workDayEnd < earliest
  · rw [if_pos hd1]
    exact ⟨[], DaysSpec.sameState settings events lockedBlocks task minBlock st new
      hsplit hinv⟩
  rw [if_neg hd1]
  by_cases hd2 : (match deadline with
    | some d => decide (d < combineDateAndTime (addDays startDay offset) settings.workDayStart)
    | none => false) = true
  · rw [if_pos hd2]
    exact ⟨[], DaysSpec.sameState settings events lockedBlocks task minBlock st new
      hsplit hinv⟩
  rw [if_neg hd2]
  set k := dayKey (addDays startDay offset) with hk
  obtain ⟨added, spec⟩ := processSlots_spec task minBlock maxBlock
    settings.maxDailyMinutes earliest deadline k hmin (st.slots k)
    st.remaining st.firstBlock st.blocks st.dailyTotals
    (hinv.slotPW k) (fun iv hiv => (hinv.slotGood k iv hiv).valid)
  set R := processSlots task minBlock maxBlock settings.maxDailyMinutes earliest deadline k
    (st.slots k) st.remaining st.firstBlock st.blocks st.dailyTotals with hR
  have haddedGoodK : ∀ b ∈ added, GoodIv settings events lockedBlocks k (blockInterval b) := by
    intro b hb
    obtain ⟨iv0, hiv0, hw⟩ := spec.addedSub b hb
    exact GoodIv.mono (hinv.slotGood k iv0 hiv0) hw (spec.addedValid b hb)
  have haddedDayKey : ∀ b ∈ added, dayKey b.start = k := by
    intro b hb
    have hv := spec.addedValid b hb
    exact goodIv_mem_dayKey hs (haddedGoodK b hb) b.start ⟨le_refl _, hv⟩
  refine ⟨added, ?_⟩
  exact
    { split := by
        dsimp only
        rw [spec.blocksEq, hsplit, List.append_assoc]
      inv :=
        { slotGood := by
            intro k' iv hiv
            dsimp only at hiv
            by_cases hkk : k' = k
            · subst hkk
              rw [setVal_same] at hiv
              obtain ⟨iv0, hiv0, hw, hv⟩ := spec.slotsSub iv hiv
              exact GoodIv.mono (hinv.slotGood k iv0 hiv0) hw hv
            · rw [setVal_other _ _ _ _ hkk] at hiv
              exact hinv.slotGood k' iv hiv
          slotPW := by
            intro k'
            dsimp only
            by_cases hkk : k' = k
            · subst hkk; rw [setVal_same]; exact spec.slotsPW
            · rw [setVal_other _ _ _ _ hkk]; exact hinv.slotPW k'
          slotNew := by
            intro k' iv hiv b hb
            dsimp only at hiv
            rcases List.mem_append.mp hb with hb | hb
            · by_cases hkk : k' = k
              · subst hkk
                rw [setVal_same] at hiv
                obtain ⟨iv0, hiv0, hw, _⟩ := spec.slotsSub iv hiv
                exact ivDisjoint_within_left hw (hinv.slotNew k iv0 hiv0 b hb)
              · rw [setVal_other _ _ _ _ hkk] at hiv
                exact hinv.slotNew k' iv hiv b hb
            · by_cases hkk : k' = k
              · subst hkk
                rw [setVal_same] at hiv
                exact spec.addedDisjSlots b hb iv hiv
              · rw [setVal_other _ _ _ _ hkk] at hiv
                exact goodIv_disj_of_ne hs (hinv.slotGood k' iv hiv) (haddedGoodK b hb)
                  (fun h => hkk h)
          newGood := by
            intro b hb
            rcases List.mem_append.mp hb with hb | hb
            · exact hinv.newGood b hb
            · rw [haddedDayKey b hb]
              exact haddedGoodK b hb
          newPW := by
            rw [List.pairwise_append]
            refine ⟨hinv.newPW, spec.addedPW, ?_⟩
            intro a ha b hb
            obtain ⟨iv0, hiv0, hw⟩ := spec.addedSub b hb
            exact ivDisjoint_within_right hw
              (ivDisjoint_symm (hinv.slotNew k iv0 hiv0 a ha))
          totalsEq := by
            intro k'
            dsimp only
            rw [dayMinutes_append]
            by_cases hkk : k' = k
            · subst hkk
              rw [spec.totalsAt, hinv.totalsEq k,
                dayMinutes_eq_sumDur added k
                  (fun b hb => ⟨haddedDayKey b hb, spec.addedValid b hb⟩)]
              ring
            · rw [spec.totalsOther k' hkk, hinv.totalsEq k',
                dayMinutes_eq_zero added k'
                  (fun b hb => by rw [haddedDayKey b hb]; exact fun h => hkk h.symm)]
              ring
          totalsCap := by
            intro k'
            dsimp only
            by_cases hkk : k' = k
            · subst hkk
              have h1 := spec.totalsCap
              have h2 := hinv.totalsCap k
              have h3 : max (st.dailyTotals k) settings.maxDailyMinutes ≤
                  max (max (minutesByDay lockedBlocks k) settings.maxDailyMinutes)
                    settings.maxDailyMinutes := max_le_max h2 (le_refl _)
              calc R.dailyTotals k ≤ max (st.dailyTotals k) settings.maxDailyMinutes := h1
                _ ≤ max (max (minutesByDay lockedBlocks k) settings.maxDailyMinutes)
                    settings.maxDailyMinutes := h3
                _ = max (minutesByDay lockedBlocks k) settings.maxDailyMinutes := by
                    rw [max_assoc, max_self]
            · rw [spec.totalsOther k' hkk]
              exact hinv.totalsCap k' }
      addedTask := spec.addedTask
      addedDurMin := spec.addedDurMin
      remInt := spec.remInt
      remNonneg := spec.remNonneg
      remNonintEmpty := spec.remNonintEmpty
      remNonintOne := spec.remNonintOne }

theorem processDays_spec (settings : Settings) (events : List CalendarEvent)
    (lockedBlocks : List PlannedBlock) (task : Task)
    (minBlock maxBlock earliest : Int) (deadline : Option Int) (startDay : Int)
    (hmin : 1 ≤ minBlock) (hs : settingsOK settings) :
    ∀ (offsets : List Nat) (st : TaskState) (new : List PlannedBlock),
      st.blocks = lockedBlocks ++ new →
      Inv settings events lockedBlocks st.slots new st.dailyTotals →
      ∃ added, DaysSpec settings events lockedBlocks task minBlock st
        (processDays task minBlock maxBlock earliest deadline settings startDay offsets st)
        new added := by
  intro offsets
  induction offsets with
  | nil =>
    intro st new hsplit hinv
    exact ⟨[], DaysSpec.sameState settings events lockedBlocks task minBlock st new
      hsplit hinv⟩
  | cons o os ih =>
    intro st new hsplit hinv
    simp only [processDays]
    by_cases h0 : st.remaining ≤ 0
    · rw [if_pos h0]
      exact ⟨[], DaysSpec.sameState settings events lockedBlocks task minBlock st new
        hsplit hinv⟩
    rw [if_neg h0]
    obtain ⟨a1, dspec1⟩ := processDay_spec settings events lockedBlocks task minBlock
      maxBlock earliest deadline startDay o hmin hs st new hsplit hinv
    by_cases hstop : (processDay task minBlock maxBlock earliest deadline settings
        startDay o st).2
    · rw [if_pos hstop]
      exact ⟨a1, dspec1⟩
    rw [if_neg hstop]
    obtain ⟨a2, dspec2⟩ := ih
      (processDay task minBlock maxBlock earliest deadline settings startDay o st).1
      (new ++ a1) dspec1.split dspec1.inv
    refine ⟨a1 ++ a2, ?_⟩
    refine
      { split := by rw [dspec2.split, List.append_assoc]
        inv := by rw [← List.append_assoc]; exact dspec2.inv
        addedTask := by
          intro b hb
          rcases List.mem_append.mp hb with hb | hb
          · exact dspec1.addedTask b hb
          · exact dspec2.addedTask b hb
        addedDurMin := by
          intro b hb
          rcases List.mem_append.mp hb with hb | hb
          · exact dspec1.addedDurMin b hb
          · exact dspec2.addedDurMin b hb
        remInt := by
          intro h
          rw [dspec2.remInt h, dspec1.remInt h, sumDur_append]
          ring
        remNonneg := fun h => dspec2.remNonneg (dspec1.remNonneg h)
        remNonintEmpty := by
          intro h he
          rw [List.append_eq_nil] at he
          rw [dspec2.remNonintEmpty h he.2, dspec1.remNonintEmpty h he.1]
        remNonintOne := by
          intro h hne
          by_cases h1e : a1 = []
          · subst h1e
            simp only [List.nil_append] at hne ⊢
            obtain ⟨b, hb1, hb2, hb3, hb4⟩ := dspec2.remNonintOne h hne
            rw [dspec1.remNonintEmpty h rfl] at hb3
            exact ⟨b, hb1, hb2, hb3, hb4⟩
          · obtain ⟨b, hb1, hb2, hb3, hb4⟩ := dspec1.remNonintOne h h1e
            have h2e : a2 = [] := by
              by_contra hne'
              obtain ⟨b', _, hb2', hb3', _⟩ := dspec2.remNonintOne h hne'
              rw [hb4] at hb3'
              omega
            subst h2e
            rw [hb1]
            refine ⟨b, by simp, hb2, hb3, ?_⟩
            rw [dspec2.remNonintEmpty h rfl, hb4] }

/-! ### The per-task step and the run fold -/

theorem processTask_of_remZero (settings : Settings) (startDay now : Int)
    (lk : String → Int) (st : AllocState) (task : Task)
    (hr : taskRemaining lk task = 0) :
    processTask settings startDay now lk st task = st := by
  unfold processTask
  dsimp only
  rw [if_pos hr]

theorem processTask_of_deadline (settings : Settings) (startDay now : Int)
    (lk : String → Int) (st : AllocState) (task : Task)
    (hr : ¬ taskRemaining lk task = 0)
    (hd : (match task.deadline with
      | some d => decide (d < effectiveEarliest task st.blocks now)
      | none => false) = true) :
    processTask settings startDay now lk st task =
      { st with warnings := st.warnings ++ [deadlineWarning task] } := by
  unfold processTask
  dsimp only
  rw [if_neg hr, if_pos hd]

theorem processTask_of_main (settings : Settings) (startDay now : Int)
    (lk : String → Int) (st : AllocState) (task : Task)
    (hr : ¬ taskRemaining lk task = 0)
    (hd : (match task.deadline with
      | some d => decide (d < effectiveEarliest task st.blocks now)
      | none => false) = false) :
    processTask settings startDay now lk st task =
      ⟨(processDays task
          (if task.interruptible then task.minBlockMinutes else taskRemaining lk task)
          (task.maxBlockMinutes.getD (taskRemaining lk task))
          (effectiveEarliest task st.blocks now) task.deadline settings startDay
          (List.range settings.planningHorizonDays.toNat)
          ⟨st.slots, taskRemaining lk task, true, st.blocks, st.dailyTotals⟩).slots,
        (processDays task
          (if task.interruptible then task.minBlockMinutes else taskRemaining lk task)
          (task.maxBlockMinutes.getD (taskRemaining lk task))
          (effectiveEarliest task st.blocks now) task.deadline settings startDay
          (List.range settings.planningHorizonDays.toNat)
          ⟨st.slots, taskRemaining lk task, true, st.blocks, st.dailyTotals⟩).blocks,
        (processDays task
          (if task.interruptible then task.minBlockMinutes else taskRemaining lk task)
          (task.maxBlockMinutes.getD (taskRemaining lk task))
          (effectiveEarliest task st.blocks now) task.deadline settings startDay
          (List.range settings.planningHorizonDays.toNat)
          ⟨st.slots, taskRemaining lk task, true, st.blocks, st.dailyTotals⟩).dailyTotals,
        st.warnings ++
          (if 0 < (processDays task
              (if task.interruptible then task.minBlockMinutes else taskRemaining lk task)
              (task.maxBlockMinutes.getD (taskRemaining lk task))
              (effectiveEarliest task st.blocks now) task.deadline settings startDay
              (List.range settings.planningHorizonDays.toNat)
              ⟨st.slots, taskRemaining lk task, true, st.blocks, st.dailyTotals⟩).remaining
            then [insufficientWarning task
              (processDays task
                (if task.interruptible then task.minBlockMinutes else taskRemaining lk task)
                (task.maxBlockMinutes.getD (taskRemaining lk task))
                (effectiveEarliest task st.blocks now) task.deadline settings startDay
                (List.range settings.planningHorizonDays.toNat)
                ⟨st.slots, taskRemaining lk task, true, st.blocks,
                  st.dailyTotals⟩).remaining]
            else [])⟩ := by
  unfold processTask
  dsimp only
  rw [if_neg hr, if_neg (by rw [hd]; simp)]
  by_cases h : 0 < (processDays task
      (if task.interruptible then task.minBlockMinutes else taskRemaining lk task)
      (task.maxBlockMinutes.getD (taskRemaining lk task))
      (effectiveEarliest task st.blocks now) task.deadline settings startDay
      (List.range settings.planningHorizonDays.toNat)
      ⟨st.slots, taskRemaining lk task, true, st.blocks, st.dailyTotals⟩).remaining
  · rw [if_pos h, if_pos h]
  · rw [if_neg h, if_neg h, List.append_nil]

theorem taskRemaining_nonneg (lk : String → Int) (task : Task) :
    0 ≤ taskRemaining lk task := le_max_left 0 _

theorem processTask_spec (settings : Settings) (events : List CalendarEvent)
    (lockedBlocks : List PlannedBlock) (startDay now : Int) (lk : String → Int)
    (st : AllocState) (task : Task)
    (hmin : task.interruptible = true → 1 ≤ task.minBlockMinutes)
    (hs : settingsOK settings)
    (new : List PlannedBlock) (hsplit : st.blocks = lockedBlocks ++ new)
    (hinv : Inv settings events lockedBlocks st.slots new st.dailyTotals) :
    ∃ added warns,
      (processTask settings startDay now lk st task).blocks = lockedBlocks ++ (new ++ added) ∧
      Inv settings events lockedBlocks (processTask settings startDay now lk st task).slots
        (new ++ added) (processTask settings startDay now lk st task).dailyTotals ∧
      (∀ b ∈ added, b.taskId = task.id) ∧
      (processTask settings startDay now lk st task).warnings = st.warnings ++ warns ∧
      (∀ w ∈ warns, w.taskId = some task.id) := by
  by_cases hr : taskRemaining lk task = 0
  · rw [processTask_of_remZero settings startDay now lk st task hr]
    refine ⟨[], [], by rw [hsplit, List.append_nil], by rw [List.append_nil]; exact hinv,
      by simp, by simp, by simp⟩
  by_cases hd : (match task.deadline with
      | some d => decide (d < effectiveEarliest task st.blocks now)
      | none => false) = true
  · rw [processTask_of_deadline settings startDay now lk st task hr hd]
    refine ⟨[], [deadlineWarning task], by rw [hsplit, List.append_nil],
      by rw [List.append_nil]; exact hinv, by simp, rfl, ?_⟩
    intro w hw
    rw [List.mem_singleton] at hw
    subst hw
    rfl
  rw [Bool.not_eq_true] at hd
  rw [processTask_of_main settings startDay now lk st task hr hd]
  have hmin1 : 1 ≤ (if task.interruptible then task.minBlockMinutes
      else taskRemaining lk task) := by
    by_cases hi : task.interruptible
    · rw [if_pos hi]; exact hmin (by simpa using hi)
    · rw [if_neg hi]
      have := taskRemaining_nonneg lk task
      omega
  obtain ⟨added, dspec⟩ := processDays_spec settings events lockedBlocks task
    (if task.interruptible then task.minBlockMinutes else taskRemaining lk task)
    (task.maxBlockMinutes.getD (taskRemaining lk task))
    (effectiveEarliest task st.blocks now) task.deadline startDay hmin1 hs
    (List.range settings.planningHorizonDays.toNat)
    ⟨st.slots, taskRemaining lk task, true, st.blocks, st.dailyTotals⟩ new hsplit hinv
  refine ⟨added, _, dspec.split, dspec.inv, dspec.addedTask, rfl, ?_⟩
  intro w hw
  have hex : ∃ m : Int, w = insufficientWarning task m := by
    split_ifs at hw
    all_goals simp at hw
    all_goals exact ⟨_, hw⟩
  obtain ⟨m, rfl⟩ := hex
  rfl

theorem foldl_processTask_spec (settings : Settings) (events : List CalendarEvent)
    (lockedBlocks : List PlannedBlock) (startDay now : Int) (lk : String → Int)
    (hs : settingsOK settings) :
    ∀ (l : List Task) (st : AllocState) (new : List PlannedBlock),
      (∀ t ∈ l, t.interruptible = true → 1 ≤ t.minBlockMinutes) →
      st.blocks = lockedBlocks ++ new →
      Inv settings events lockedBlocks st.slots new st.dailyTotals →
      ∃ added warns,
        (l.foldl (processTask settings startDay now lk) st).blocks
          = lockedBlocks ++ (new ++ added) ∧
        Inv settings events lockedBlocks
          (l.foldl (processTask settings startDay now lk) st).slots (new ++ added)
          (l.foldl (processTask settings startDay now lk) st).dailyTotals ∧
        (∀ b ∈ added, ∃ t ∈ l, b.taskId = t.id) ∧
        (l.foldl (processTask settings startDay now lk) st).warnings
          = st.warnings ++ warns ∧
        (∀ w ∈ warns, ∃ t ∈ l, w.taskId = some t.id) := by
  intro l
  induction l with
  | nil =>
    intro st new _ hsplit hinv
    exact ⟨[], [], by simp only [List.foldl_nil, List.append_nil]; exact hsplit,
      by rw [List.append_nil]; exact hinv, by simp,
      by simp only [List.foldl_nil, List.append_nil], by simp⟩
  | cons t ts ih =>
    intro st new hmins hsplit hinv
    rw [List.foldl_cons]
    obtain ⟨a1, w1, hb1, hinv1, hid1, hw1, hwid1⟩ := processTask_spec settings events
      lockedBlocks startDay now lk st t (hmins t (by simp)) hs new hsplit hinv
    obtain ⟨a2, w2, hb2, hinv2, hid2, hw2, hwid2⟩ := ih
      (processTask settings startDay now lk st t) (new ++ a1)
      (fun u hu => hmins u (by simp [hu])) hb1 hinv1
    refine ⟨a1 ++ a2, w1 ++ w2, ?_, ?_, ?_, ?_, ?_⟩
    · rw [hb2, List.append_assoc]
    · rw [← List.append_assoc]; exact hinv2
    · intro b hb
      rcases List.mem_append.mp hb with hb | hb
      · exact ⟨t, by simp, hid1 b hb⟩
      · obtain ⟨u, hu, hid⟩ := hid2 b hb
        exact ⟨u, by simp [hu], hid⟩
    · rw [hw2, hw1, List.append_assoc]
    · intro w hw
      rcases List.mem_append.mp hw with hw | hw
      · exact ⟨t, by simp, hwid1 w hw⟩
      · obtain ⟨u, hu, hid⟩ := hwid2 w hw
        exact ⟨u, by simp [hu], hid⟩

theorem allocFinal_spec (tasks : List Task) (events : List CalendarEvent)
    (settings : Settings) (lockedBlocks : List PlannedBlock) (now : Int)
    (hs : settingsOK settings)
    (hmins : ∀ t ∈ tasks, t.interruptible = true → 1 ≤ t.minBlockMinutes) :
    ∃ added warns,
      (allocFinal tasks events settings lockedBlocks now).blocks = lockedBlocks ++ added ∧
      Inv settings events lockedBlocks
        (allocFinal tasks events settings lockedBlocks now).slots added
        (allocFinal tasks events settings lockedBlocks now).dailyTotals ∧
      (∀ b ∈ added, ∃ t ∈ tasks, b.taskId = t.id) ∧
      (allocFinal tasks events settings lockedBlocks now).warnings = warns ∧
      (∀ w ∈ warns, ∃ t ∈ tasks, w.taskId = some t.id) := by
  have hmem : ∀ t, t ∈ List.insertionSort taskOrder tasks ↔ t ∈ tasks := fun t =>
    (List.perm_insertionSort taskOrder tasks).mem_iff
  obtain ⟨added, warns, hb, hinv, hid, hw, hwid⟩ := foldl_processTask_spec settings events
    lockedBlocks (startOfDay now) now (minutesByTask lockedBlocks) hs
    (List.insertionSort taskOrder tasks)
    (initialAllocState events settings lockedBlocks now) []
    (fun t ht => (fun h => h) ∘ (fun h => h) <| fun hi =>
      (hmins t ((hmem t).mp ht)) hi)
    (by rw [List.append_nil]; rfl)
    (inv_initial settings events lockedBlocks now)
  refine ⟨added, warns, ?_, ?_, ?_, ?_, ?_⟩
  · simpa using hb
  · have := hinv
    rw [List.nil_append] at this
    exact this
  · intro b hbm
    obtain ⟨t, ht, hid'⟩ := hid b (by simpa using hbm)
    exact ⟨t, (hmem t).mp ht, hid'⟩
  · simpa using hw
  · intro w hwm
    obtain ⟨t, ht, hid'⟩ := hwid w (by simpa using hwm)
    exact ⟨t, (hmem t).mp ht, hid'⟩

/-! ### Claims C1, C4, C5 -/

/-- C1 (amended): in every run (with structurally sane settings and the
data-model bound `minBlockMinutes ≥ 1` on interruptible tasks), the newly
placed blocks overlap nothing: they are pairwise non-overlapping in the
half-open sense, and none shares a time point with any locked block or any
`busy=true` calendar event. Locked blocks supplied by the caller may conflict
with each other or with busy events, which the claim as stated does not
survive; such conflicts are only flagged by the validator. -/
theorem c1_new_blocks_overlap_nothing (tasks : List Task) (events : List CalendarEvent)
    (settings : Settings) (lockedBlocks : List PlannedBlock) (now : Int)
    (hs : 0 ≤ settings.workDayStart ∧ settings.workDayEnd ≤ 1440)
    (hmins : ∀ t ∈ tasks, t.interruptible = true → 1 ≤ t.minBlockMinutes) :
    ∃ newBlocks,
      (generatePlan tasks events settings lockedBlocks now).blocks
        = lockedBlocks ++ newBlocks ∧
      newBlocks.Pairwise (fun a b => ∀ p : Int,
        ¬ (memIv p (blockInterval a) ∧ memIv p (blockInterval b))) ∧
      (∀ b ∈ newBlocks, ∀ lb ∈ lockedBlocks, ∀ p : Int,
        ¬ (memIv p (blockInterval b) ∧ memIv p (blockInterval lb))) ∧
      (∀ b ∈ newBlocks, ∀ e ∈ events, e.busy = true → ∀ p : Int,
        ¬ (memIv p (blockInterval b) ∧ memIv p (eventInterval e))) := by
  obtain ⟨added, warns, hb, hinv, _, _, _⟩ := allocFinal_spec tasks events settings
    lockedBlocks now hs hmins
  refine ⟨added, ?_, ?_, ?_, ?_⟩
  · rw [generatePlan_blocks_eq]; exact hb
  · refine hinv.newPW.imp ?_
    intro a b hab p hp
    exact hab p hp.1 hp.2
  · intro b hbm lb hlb p hp
    exact (hinv.newGood b hbm).noLocked lb hlb p hp.1 hp.2
  · intro b hbm e he hbusy p hp
    exact (hinv.newGood b hbm).noBusy e he hbusy p hp.1 hp.2

/-- Witness for C1 (amended) at a concrete run with one task. -/
theorem c1_new_blocks_overlap_nothing_witness :
    ∃ newBlocks,
      (generatePlan
        [{ id := "t1", title := "T1", estimatedMinutes := 90, priority := 3,
           interruptible := true, minBlockMinutes := 30 }]
        [] ⟨1, 540, 1080, 720, 780, 360⟩ [] 0).blocks = [] ++ newBlocks ∧
      newBlocks.Pairwise (fun a b => ∀ p : Int,
        ¬ (memIv p (blockInterval a) ∧ memIv p (blockInterval b))) ∧
      (∀ b ∈ newBlocks, ∀ lb ∈ ([] : List PlannedBlock), ∀ p : Int,
        ¬ (memIv p (blockInterval b) ∧ memIv p (blockInterval lb))) ∧
      (∀ b ∈ newBlocks, ∀ e ∈ ([] : List CalendarEvent), e.busy = true → ∀ p : Int,
        ¬ (memIv p (blockInterval b) ∧ memIv p (eventInterval e))) :=
  c1_new_blocks_overlap_nothing
    [{ id := "t1", title := "T1", estimatedMinutes := 90, priority := 3,
       interruptible := true, minBlockMinutes := 30 }]
    [] ⟨1, 540, 1080, 720, 780, 360⟩ [] 0 (by decide) (by decide)

/-- C1 counterexample: two caller-supplied locked blocks that overlap each
other are both in the returned block list, so the claim as stated (no two
blocks of the result overlap) is false. -/
theorem c1_counterexample :
    (generatePlan [] [] ⟨1, 540, 1080, 720, 780, 360⟩
      [⟨"L1", "t1", 540, 600, 0, [], some true⟩, ⟨"L2", "t2", 570, 630, 0, [], some true⟩]
      0).blocks
      = [⟨"L1", "t1", 540, 600, 0, [], some true⟩,
         ⟨"L2", "t2", 570, 630, 0, [], some true⟩] ∧
    memIv 580 (blockInterval ⟨"L1", "t1", 540, 600, 0, [], some true⟩) ∧
    memIv 580 (blockInterval ⟨"L2", "t2", 570, 630, 0, [], some true⟩) := by
  decide

/-- C4 (amended): provided the caller-supplied locked blocks alone do not
already exceed `maxDailyMinutes` on any day, the total duration of all blocks
of the returned plan whose start falls on a given day is at most
`maxDailyMinutes`, for every day. Locked blocks can violate the cap by
themselves, which the claim as stated does not survive. -/
theorem c4_daily_cap (tasks : List Task) (events : List CalendarEvent)
    (settings : Settings) (lockedBlocks : List PlannedBlock) (now : Int)
    (hs : 0 ≤ settings.workDayStart ∧ settings.workDayEnd ≤ 1440)
    (hmins : ∀ t ∈ tasks, t.interruptible = true → 1 ≤ t.minBlockMinutes)
    (hlocked : ∀ k : Int, dayMinutes lockedBlocks k ≤ settings.maxDailyMinutes) :
    ∀ k : Int,
      dayMinutes (generatePlan tasks events settings lockedBlocks now).blocks k
        ≤ settings.maxDailyMinutes := by
  intro k
  obtain ⟨added, warns, hb, hinv, _, _, _⟩ := allocFinal_spec tasks events settings
    lockedBlocks now hs hmins
  rw [generatePlan_blocks_eq, hb, dayMinutes_append]
  have h1 := hinv.totalsEq k
  have h2 := hinv.totalsCap k
  rw [minutesByDay_eq_dayMinutes] at h1 h2
  have h3 := hlocked k
  have h4 : max (dayMinutes lockedBlocks k) settings.maxDailyMinutes
      = settings.maxDailyMinutes := max_eq_right h3
  omega

/-- Witness for C4 (amended) at a concrete overfull run: a 600-minute task
against a 360-minute cap still keeps every day at or below the cap. -/
theorem c4_daily_cap_witness :
    dayMinutes (generatePlan
        [{ id := "t1", title := "T1", estimatedMinutes := 600, priority := 3,
           interruptible := true, minBlockMinutes := 30 }]
        [] ⟨1, 540, 1080, 720, 780, 360⟩ [] 0).blocks 0
      ≤ (⟨1, 540, 1080, 720, 780, 360⟩ : Settings).maxDailyMinutes :=
  c4_daily_cap
    [{ id := "t1", title := "T1", estimatedMinutes := 600, priority := 3,
       interruptible := true, minBlockMinutes := 30 }]
    [] ⟨1, 540, 1080, 720, 780, 360⟩ [] 0 (by decide) (by decide)
    (fun k => by simp [dayMinutes_nil]) 0

/-- C4 counterexample: a single caller-supplied locked block of 600 minutes
starting today puts that day's total at 600, above the 360-minute cap, so the
claim as stated is false when locked blocks alone exceed the cap. -/
theorem c4_counterexample :
    dayMinutes (generatePlan [] [] ⟨1, 540, 1080, 720, 780, 360⟩
      [⟨"L1", "t1", 540, 1140, 0, [], some true⟩] 0).blocks (dayKey 540) = 600 ∧
    ¬ ((600 : Int) ≤ (⟨1, 540, 1080, 720, 780, 360⟩ : Settings).maxDailyMinutes) := by
  decide

/-- C5: every newly placed (non-locked) block lies entirely within the
working window `[workDayStart, workDayEnd]` of the day containing its start
and shares no time point with that day's `[lunchStart, lunchEnd)` interval. -/
theorem c5_new_blocks_within_work_hours (tasks : List Task) (events : List CalendarEvent)
    (settings : Settings) (lockedBlocks : List PlannedBlock) (now : Int)
    (hs : 0 ≤ settings.workDayStart ∧ settings.workDayEnd ≤ 1440)
    (hmins : ∀ t ∈ tasks, t.interruptible = true → 1 ≤ t.minBlockMinutes) :
    ∃ newBlocks,
      (generatePlan tasks events settings lockedBlocks now).blocks
        = lockedBlocks ++ newBlocks ∧
      ∀ b ∈ newBlocks,
        dayWindowStart settings (dayKey b.start) ≤ b.start ∧
        b.«end» ≤ dayWindowEnd settings (dayKey b.start) ∧
        ∀ p : Int, memIv p (blockInterval b) →
          ¬ (1440 * dayKey b.start + settings.lunchStart ≤ p ∧
             p < 1440 * dayKey b.start + settings.lunchEnd) := by
  obtain ⟨added, warns, hb, hinv, _, _, _⟩ := allocFinal_spec tasks events settings
    lockedBlocks now hs hmins
  refine ⟨added, by rw [generatePlan_blocks_eq]; exact hb, ?_⟩
  intro b hbm
  have hg := hinv.newGood b hbm
  exact ⟨hg.winLo, hg.winHi, hg.noLunch⟩

/-- Witness for C5 at a concrete run with one task. -/
theorem c5_new_blocks_within_work_hours_witness :
    ∃ newBlocks,
      (generatePlan
        [{ id := "t1", title := "T1", estimatedMinutes := 90, priority := 3,
           interruptible := true, minBlockMinutes := 30 }]
        [] ⟨1, 540, 1080, 720, 780, 360⟩ [] 0).blocks = [] ++ newBlocks ∧
      ∀ b ∈ newBlocks,
        dayWindowStart ⟨1, 540, 1080, 720, 780, 360⟩ (dayKey b.start) ≤ b.start ∧
        b.«end» ≤ dayWindowEnd ⟨1, 540, 1080, 720, 780, 360⟩ (dayKey b.start) ∧
        ∀ p : Int, memIv p (blockInterval b) →
          ¬ (1440 * dayKey b.start + (⟨1, 540, 1080, 720, 780, 360⟩ : Settings).lunchStart ≤ p ∧
             p < 1440 * dayKey b.start + (⟨1, 540, 1080, 720, 780, 360⟩ : Settings).lunchEnd) :=
  c5_new_blocks_within_work_hours
    [{ id := "t1", title := "T1", estimatedMinutes := 90, priority := 3,
       interruptible := true, minBlockMinutes := 30 }]
    [] ⟨1, 540, 1080, 720, 780, 360⟩ [] 0 (by decide) (by decide)

/-! ### Locating one task's contribution in a full run -/

theorem adjacentOverlapWarnings_taskId (l : List PlannedBlock) :
    ∀ w ∈ adjacentOverlapWarnings l, w.taskId = none := by
  induction l with
  | nil => intro w hw; simp [adjacentOverlapWarnings] at hw
  | cons a tl ih =>
    match tl with
    | [] => intro w hw; simp [adjacentOverlapWarnings] at hw
    | b :: rest =>
      intro w hw
      unfold adjacentOverlapWarnings at hw
      rcases List.mem_append.mp hw with hw | hw
      · split_ifs at hw
        · rw [List.mem_singleton] at hw; subst hw; rfl
        · simp at hw
      · exact ih w hw

theorem validateBlocks_warnings (blocks : List PlannedBlock) (events : List CalendarEvent)
    (settings : Settings) (ws : List PlanWarning) :
    ∃ tail, validateBlocks blocks events settings ws = ws ++ tail ∧
      ∀ w ∈ tail, w.taskId = none := by
  unfold validateBlocks
  dsimp only
  have hbusyFold : ∀ (bi : List Interval) (blockIv : Interval) (block : PlannedBlock)
      (ws0 : List PlanWarning),
      ∃ tail, bi.foldl (fun ws busy =>
        if overlaps blockIv busy = true then ws ++ [overlapsBusyWarning block] else ws) ws0
        = ws0 ++ tail ∧ ∀ w ∈ tail, w.taskId = none := by
    intro bi
    induction bi with
    | nil => intro blockIv block ws0; exact ⟨[], by simp, by simp⟩
    | cons busy rest ih =>
      intro blockIv block ws0
      rw [List.foldl_cons]
      by_cases h : overlaps blockIv busy = true
      · rw [if_pos h]
        obtain ⟨tail, heq, hta⟩ := ih blockIv block (ws0 ++ [overlapsBusyWarning block])
        refine ⟨[overlapsBusyWarning block] ++ tail, by rw [heq, List.append_assoc], ?_⟩
        intro w hw
        rcases List.mem_append.mp hw with hw | hw
        · rw [List.mem_singleton] at hw; subst hw; rfl
        · exact hta w hw
      · rw [if_neg h]
        exact ih blockIv block ws0
  have hblocksFold : ∀ (bl : List PlannedBlock) (ws0 : List PlanWarning),
      ∃ tail, bl.foldl (fun ws block =>
        let blockIv := blockInterval block
        let day := startOfDay block.start
        let workStart := combineDateAndTime day settings.workDayStart
        let workEnd := combineDateAndTime day settings.workDayEnd
        let ws' := if block.start < workStart ∨ workEnd < block.«end» then
            ws ++ [outsideWorkHoursWarning block]
          else ws
        ((events.filter (fun e => e.busy)).map eventInterval).foldl
          (fun ws busy =>
            if overlaps blockIv busy = true then ws ++ [overlapsBusyWarning block] else ws)
          ws') ws0
        = ws0 ++ tail ∧ ∀ w ∈ tail, w.taskId = none := by
    intro bl
    induction bl with
    | nil => intro ws0; exact ⟨[], by simp, by simp⟩
    | cons block rest ih =>
      intro ws0
      rw [List.foldl_cons]
      dsimp only
      by_cases h : block.start < combineDateAndTime (startOfDay block.start)
          settings.workDayStart ∨
          combineDateAndTime (startOfDay block.start) settings.workDayEnd < block.«end»
      · rw [if_pos h]
        obtain ⟨t1, he1, ht1⟩ := hbusyFold ((events.filter (fun e => e.busy)).map eventInterval)
          (blockInterval block) block (ws0 ++ [outsideWorkHoursWarning block])
        obtain ⟨t2, he2, ht2⟩ := ih ((ws0 ++ [outsideWorkHoursWarning block]) ++ t1)
        rw [he1, he2]
        refine ⟨([outsideWorkHoursWarning block] ++ t1) ++ t2, by
          rw [List.append_assoc, List.append_assoc, List.append_assoc], ?_⟩
        intro w hw
        rcases List.mem_append.mp hw with hw | hw
        · rcases List.mem_append.mp hw with hw | hw
          · rw [List.mem_singleton] at hw; subst hw; rfl
          · exact ht1 w hw
        · exact ht2 w hw
      · rw [if_neg h]
        obtain ⟨t1, he1, ht1⟩ := hbusyFold ((events.filter (fun e => e.busy)).map eventInterval)
          (blockInterval block) block ws0
        obtain ⟨t2, he2, ht2⟩ := ih (ws0 ++ t1)
        rw [he1, he2]
        refine ⟨t1 ++ t2, by rw [List.append_assoc], ?_⟩
        intro w hw
        rcases List.mem_append.mp hw with hw | hw
        · exact ht1 w hw
        · exact ht2 w hw
  obtain ⟨t1, he1, ht1⟩ := hblocksFold blocks ws
  rw [he1]
  refine ⟨t1 ++ adjacentOverlapWarnings (List.insertionSort blockLE blocks),
    by rw [List.append_assoc], ?_⟩
  intro w hw
  rcases List.mem_append.mp hw with hw | hw
  · exact ht1 w hw
  · exact adjacentOverlapWarnings_taskId _ w hw

theorem matchDeadline_iff (t : Task) (e : Int) :
    ((match t.deadline with
      | some d => decide (d < e)
      | none => false) = true) ↔ ∃ d, t.deadline = some d ∧ d < e := by
  rcases t.deadline with _ | d <;> simp

/-- How one given task `t` contributes to a full `generatePlan` run: the
result's blocks and warnings decompose around the blocks `aT` and warnings
`wT` of `t`'s own allocation step, every other block or task-tagged warning
carries some other task's id, and `aT`/`wT` behave exactly as the allocator's
three per-task branches dictate relative to the state `s1` reached before
`t`'s turn. -/
theorem generatePlan_perTask (tasks : List Task) (events : List CalendarEvent)
    (settings : Settings) (lockedBlocks : List PlannedBlock) (now : Int) (t : Task)
    (hs : settingsOK settings)
    (hmins : ∀ u ∈ tasks, u.interruptible = true → 1 ≤ u.minBlockMinutes)
    (hids : (tasks.map Task.id).Nodup) (ht : t ∈ tasks) :
    ∃ (s1 : AllocState) (aT oB1 oB2 : List PlannedBlock) (wT oW1 oW2 : List PlanWarning),
      (generatePlan tasks events settings lockedBlocks now).blocks
        = lockedBlocks ++ (oB1 ++ (aT ++ oB2)) ∧
      (generatePlan tasks events settings lockedBlocks now).warnings
        = oW1 ++ (wT ++ oW2) ∧
      s1.blocks = lockedBlocks ++ oB1 ∧
      (∀ b ∈ oB1, b.taskId ≠ t.id) ∧ (∀ b ∈ oB2, b.taskId ≠ t.id) ∧
      (∀ w ∈ oW1, w.taskId ≠ some t.id) ∧ (∀ w ∈ oW2, w.taskId ≠ some t.id) ∧
      (∀ b ∈ aT, b.taskId = t.id ∧ b.start < b.«end») ∧
      (taskRemaining (minutesByTask lockedBlocks) t = 0 → aT = [] ∧ wT = []) ∧
      (taskRemaining (minutesByTask lockedBlocks) t ≠ 0 →
        ((∃ d, t.deadline = some d ∧ d < effectiveEarliest t s1.blocks now) →
          aT = [] ∧ wT = [deadlineWarning t]) ∧
        (¬ (∃ d, t.deadline = some d ∧ d < effectiveEarliest t s1.blocks now) →
          ∃ rRem, 0 ≤ rRem ∧
            wT = (if 0 < rRem then [insufficientWarning t rRem] else []) ∧
            (t.interruptible = true →
              rRem = taskRemaining (minutesByTask lockedBlocks) t - sumDur aT) ∧
            (t.interruptible = false →
              (aT = [] ∧ rRem = taskRemaining (minutesByTask lockedBlocks) t) ∨
              (∃ b, aT = [b] ∧
                b.«end» - b.start = taskRemaining (minutesByTask lockedBlocks) t ∧
                rRem = 0)))) := by
  have hperm := List.perm_insertionSort taskOrder tasks
  have htm : t ∈ List.insertionSort taskOrder tasks := hperm.mem_iff.mpr ht
  obtain ⟨pre, post, hdec⟩ := List.append_of_mem htm
  have hminsS : ∀ u ∈ List.insertionSort taskOrder tasks,
      u.interruptible = true → 1 ≤ u.minBlockMinutes :=
    fun u hu => hmins u (hperm.mem_iff.mp hu)
  have hminsPre : ∀ u ∈ pre, u.interruptible = true → 1 ≤ u.minBlockMinutes :=
    fun u hu => hminsS u (by rw [hdec]; exact List.mem_append.mpr (Or.inl hu))
  have hminsPost : ∀ u ∈ post, u.interruptible = true → 1 ≤ u.minBlockMinutes :=
    fun u hu => hminsS u (by rw [hdec]; exact List.mem_append.mpr (Or.inr (by simp [hu])))
  have hminsT : t.interruptible = true → 1 ≤ t.minBlockMinutes :=
    hminsS t htm
  have hidsS : ((List.insertionSort taskOrder tasks).map Task.id).Nodup :=
    ((hperm.map Task.id).nodup_iff).mpr hids
  rw [hdec, List.map_append, List.map_cons] at hidsS
  rw [List.nodup_append] at hidsS
  obtain ⟨_, hnodupCons, hdisj⟩ := hidsS
  rw [List.nodup_cons] at hnodupCons
  have hpreNe : ∀ u ∈ pre, u.id ≠ t.id := by
    intro u hu heq
    exact hdisj (List.mem_map.mpr ⟨u, hu, rfl⟩) (by rw [heq]; simp)
  have hpostNe : ∀ u ∈ post, u.id ≠ t.id := by
    intro u hu heq
    exact hnodupCons.1 (by rw [← heq]; exact List.mem_map.mpr ⟨u, hu, rfl⟩)
  have hfoldSplit : allocFinal tasks events settings lockedBlocks now =
      post.foldl (processTask settings (startOfDay now) now (minutesByTask lockedBlocks))
        (processTask settings (startOfDay now) now (minutesByTask lockedBlocks)
          (pre.foldl (processTask settings (startOfDay now) now (minutesByTask lockedBlocks))
            (initialAllocState events settings lockedBlocks now)) t) := by
    unfold allocFinal
    rw [hdec, List.foldl_append, List.foldl_cons]
  set lk := minutesByTask lockedBlocks with hlk
  set s0 := initialAllocState events settings lockedBlocks now with hs0
  set s1 := pre.foldl (processTask settings (startOfDay now) now lk) s0 with hs1
  obtain ⟨a1, w1, hb1, hinv1, hid1, hw1, hwid1⟩ := foldl_processTask_spec settings events
    lockedBlocks (startOfDay now) now lk hs pre s0 [] hminsPre (by rw [List.append_nil]; rfl)
    (inv_initial settings events lockedBlocks now)
  rw [List.nil_append] at hb1 hinv1
  have hw1' : s1.warnings = w1 := by
    rw [hs1]
    rw [hw1]
    rfl
  have hoB1Ne : ∀ b ∈ a1, b.taskId ≠ t.id := by
    intro b hb
    obtain ⟨u, hu, hbu⟩ := hid1 b hb
    rw [hbu]
    exact hpreNe u hu
  have hoW1Ne : ∀ w ∈ w1, w.taskId ≠ some t.id := by
    intro w hw
    obtain ⟨u, hu, hwu⟩ := hwid1 w hw
    rw [hwu]
    intro hco
    exact hpreNe u hu (by injection hco)
  -- analyse t's own step
  by_cases hr0 : taskRemaining lk t = 0
  · -- skipped entirely
    have hstep : processTask settings (startOfDay now) now lk s1 t = s1 :=
      processTask_of_remZero settings (startOfDay now) now lk s1 t hr0
    obtain ⟨a2, w2, hb2, hinv2, hid2, hw2, hwid2⟩ := foldl_processTask_spec settings events
      lockedBlocks (startOfDay now) now lk hs post s1 a1 hminsPost hb1 hinv1
    obtain ⟨vtail, hvt, hvtNone⟩ := validateBlocks_warnings
      (allocFinal tasks events settings lockedBlocks now).blocks events settings
      (allocFinal tasks events settings lockedBlocks now).warnings
    refine ⟨s1, [], a1, a2, [], w1, w2 ++ vtail, ?_, ?_, hb1, hoB1Ne, ?_, hoW1Ne, ?_,
      by simp, fun _ => ⟨rfl, rfl⟩, fun h => absurd hr0 h⟩
    · rw [generatePlan_blocks_eq, hfoldSplit, hstep]
      rw [hb2]
      simp
    · rw [generatePlan_warnings_eq, hvt, hfoldSplit, hstep]
      rw [hw2, hw1']
      simp [hfoldSplit, hstep]
    · intro b hb
      obtain ⟨u, hu, hbu⟩ := hid2 b hb
      rw [hbu]
      exact hpostNe u hu
    · intro w hw
      rcases List.mem_append.mp hw with hw | hw
      · obtain ⟨u, hu, hwu⟩ := hwid2 w hw
        rw [hwu]
        intro hco
        exact hpostNe u hu (by injection hco)
      · rw [hvtNone w hw]
        simp
  by_cases hd : (match t.deadline with
      | some d => decide (d < effectiveEarliest t s1.blocks now)
      | none => false) = true
  · -- deadline already passed
    have hstep : processTask settings (startOfDay now) now lk s1 t =
        { s1 with warnings := s1.warnings ++ [deadlineWarning t] } :=
      processTask_of_deadline settings (startOfDay now) now lk s1 t hr0 hd
    have hb1' : ({ s1 with warnings := s1.warnings ++ [deadlineWarning t] } :
        AllocState).blocks = lockedBlocks ++ (a1 ++ []) := by
      rw [List.append_nil]
      exact hb1
    obtain ⟨a2, w2, hb2, hinv2, hid2, hw2, hwid2⟩ := foldl_processTask_spec settings events
      lockedBlocks (startOfDay now) now lk hs post
      { s1 with warnings := s1.warnings ++ [deadlineWarning t] } (a1 ++ []) hminsPost hb1'
      (by rw [List.append_nil]; exact hinv1)
    obtain ⟨vtail, hvt, hvtNone⟩ := validateBlocks_warnings
      (allocFinal tasks events settings lockedBlocks now).blocks events settings
      (allocFinal tasks events settings lockedBlocks now).warnings
    refine ⟨s1, [], a1, a2, [deadlineWarning t], w1, w2 ++ vtail, ?_, ?_, hb1, hoB1Ne, ?_,
      hoW1Ne, ?_, by simp, fun h => absurd h hr0, ?_⟩
    · rw [generatePlan_blocks_eq, hfoldSplit, hstep]
      rw [hb2]
      simp
    · rw [generatePlan_warnings_eq, hvt, hfoldSplit, hstep]
      rw [hw2]
      dsimp only
      rw [hw1']
      simp [hfoldSplit, hstep]
    · intro b hb
      obtain ⟨u, hu, hbu⟩ := hid2 b hb
      rw [hbu]
      exact hpostNe u hu
    · intro w hw
      rcases List.mem_append.mp hw with hw | hw
      · obtain ⟨u, hu, hwu⟩ := hwid2 w hw
        rw [hwu]
        intro hco
        exact hpostNe u hu (by injection hco)
      · rw [hvtNone w hw]
        simp
    · intro _
      refine ⟨fun _ => ⟨rfl, rfl⟩, fun hcon => ?_⟩
      exact absurd ((matchDeadline_iff t (effectiveEarliest t s1.blocks now)).mp hd) hcon
  · -- main allocation branch
    rw [Bool.not_eq_true] at hd
    have hstep := processTask_of_main settings (startOfDay now) now lk s1 t hr0 hd
    have hmin1 : 1 ≤ (if t.interruptible then t.minBlockMinutes else taskRemaining lk t) := by
      by_cases hi : t.interruptible
      · rw [if_pos hi]; exact hminsT (by simpa using hi)
      · rw [if_neg hi]
        have := taskRemaining_nonneg lk t
        omega
    obtain ⟨aT, dspec⟩ := processDays_spec settings events lockedBlocks t
      (if t.interruptible then t.minBlockMinutes else taskRemaining lk t)
      (t.maxBlockMinutes.getD (taskRemaining lk t))
      (effectiveEarliest t s1.blocks now) t.deadline (startOfDay now) hmin1 hs
      (List.range settings.planningHorizonDays.toNat)
      ⟨s1.slots, taskRemaining lk t, true, s1.blocks, s1.dailyTotals⟩ a1 hb1 hinv1
    set R := processDays t
      (if t.interruptible then t.minBlockMinutes else taskRemaining lk t)
      (t.maxBlockMinutes.getD (taskRemaining lk t))
      (effectiveEarliest t s1.blocks now) t.deadline settings (startOfDay now)
      (List.range settings.planningHorizonDays.toNat)
      ⟨s1.slots, taskRemaining lk t, true, s1.blocks, s1.dailyTotals⟩ with hR
    have hs2b : (⟨R.slots, R.blocks, R.dailyTotals,
        s1.warnings ++ (if 0 < R.remaining
          then [insufficientWarning t R.remaining] else [])⟩ : AllocState).blocks
        = lockedBlocks ++ (a1 ++ aT) := dspec.split
    obtain ⟨a2, w2, hb2, hinv2, hid2, hw2, hwid2⟩ := foldl_processTask_spec settings events
      lockedBlocks (startOfDay now) now lk hs post
      ⟨R.slots, R.blocks, R.dailyTotals,
        s1.warnings ++ (if 0 < R.remaining
          then [insufficientWarning t R.remaining] else [])⟩ (a1 ++ aT) hminsPost hs2b
      dspec.inv
    obtain ⟨vtail, hvt, hvtNone⟩ := validateBlocks_warnings
      (allocFinal tasks events settings lockedBlocks now).blocks events settings
      (allocFinal tasks events settings lockedBlocks now).warnings
    have haTfacts : ∀ b ∈ aT, b.taskId = t.id ∧ b.start < b.«end» := by
      intro b hb
      refine ⟨dspec.addedTask b hb, ?_⟩
      have := dspec.addedDurMin b hb
      omega
    refine ⟨s1, aT, a1, a2,
      (if 0 < R.remaining then [insufficientWarning t R.remaining] else []),
      w1, w2 ++ vtail, ?_, ?_, hb1, hoB1Ne, ?_, hoW1Ne, ?_, haTfacts,
      fun h => absurd h hr0, ?_⟩
    · rw [generatePlan_blocks_eq, hfoldSplit, hstep]
      rw [hb2]
      simp
    · rw [generatePlan_warnings_eq, hvt, hfoldSplit, hstep]
      rw [hw2]
      dsimp only
      rw [hw1']
      simp [hfoldSplit, hstep]
    · intro b hb
      obtain ⟨u, hu, hbu⟩ := hid2 b hb
      rw [hbu]
      exact hpostNe u hu
    · intro w hw
      rcases List.mem_append.mp hw with hw | hw
      · obtain ⟨u, hu, hwu⟩ := hwid2 w hw
        rw [hwu]
        intro hco
        exact hpostNe u hu (by injection hco)
      · rw [hvtNone w hw]
        simp
    · intro _
      refine ⟨fun hcon => ?_, fun _ => ?_⟩
      · exact absurd ((matchDeadline_iff t (effectiveEarliest t s1.blocks now)).mpr hcon)
          (by rw [hd]; simp)
      · refine ⟨R.remaining, dspec.remNonneg (taskRemaining_nonneg lk t), rfl, ?_, ?_⟩
        · intro hi
          have := dspec.remInt hi
          exact this
        · intro hi
          by_cases haTe : aT = []
          · exact Or.inl ⟨haTe, dspec.remNonintEmpty hi haTe⟩
          · obtain ⟨b, hb1', hb2', hb3', hb4'⟩ := dspec.remNonintOne hi haTe
            refine Or.inr ⟨b, hb1', ?_, hb4'⟩
            rw [if_neg (by rw [hi]; simp)] at hb2'
            dsimp only at hb3'
            omega

/-- C2: for every task with `interruptible = false`, `generatePlan` emits at
most one new block for that task, and when a block is emitted its duration is
exactly the task's remaining minutes
`R = max 0 (estimatedMinutes - completedMinutes - locked minutes for the task)`;
otherwise it emits zero blocks for the task. -/
theorem c2_noninterruptible_single_block (tasks : List Task)
    (events : List CalendarEvent) (settings : Settings)
    (lockedBlocks : List PlannedBlock) (now : Int) (t : Task)
    (hs : settingsOK settings)
    (hmins : ∀ u ∈ tasks, u.interruptible = true → 1 ≤ u.minBlockMinutes)
    (hids : (tasks.map Task.id).Nodup) (ht : t ∈ tasks)
    (hni : t.interruptible = false) :
    ∃ newBlocks : List PlannedBlock,
      (generatePlan tasks events settings lockedBlocks now).blocks
        = lockedBlocks ++ newBlocks ∧
      (newBlocks.filter (fun b => decide (b.taskId = t.id)) = [] ∨
        ∃ b, newBlocks.filter (fun b => decide (b.taskId = t.id)) = [b] ∧
          minutesBetween b.start b.«end»
            = taskRemaining (minutesByTask lockedBlocks) t) := by
  obtain ⟨s1, aT, oB1, oB2, wT, oW1, oW2, hblocks, hwarns, hs1b, hB1, hB2, hW1, hW2,
    haT, hrz, hrnz⟩ := generatePlan_perTask tasks events settings lockedBlocks now t
      hs hmins hids ht
  refine ⟨oB1 ++ (aT ++ oB2), hblocks, ?_⟩
  have hf1 : oB1.filter (fun b => decide (b.taskId = t.id)) = [] := by
    rw [List.filter_eq_nil_iff]
    intro b hb
    simpa using hB1 b hb
  have hf2 : oB2.filter (fun b => decide (b.taskId = t.id)) = [] := by
    rw [List.filter_eq_nil_iff]
    intro b hb
    simpa using hB2 b hb
  have hfa : aT.filter (fun b => decide (b.taskId = t.id)) = aT := by
    rw [List.filter_eq_self]
    intro b hb
    simpa using (haT b hb).1
  rw [List.filter_append, List.filter_append, hf1, hf2, hfa, List.nil_append,
    List.append_nil]
  by_cases hr0 : taskRemaining (minutesByTask lockedBlocks) t = 0
  · exact Or.inl (hrz hr0).1
  · obtain ⟨hdead, hmain⟩ := hrnz hr0
    by_cases hcond : ∃ d, t.deadline = some d ∧ d < effectiveEarliest t s1.blocks now
    · exact Or.inl (hdead hcond).1
    · obtain ⟨rRem, hr1, hr2, _, hr4⟩ := hmain hcond
      rcases hr4 hni with ⟨haTe, _⟩ | ⟨b, hbe, hbd, _⟩
      · exact Or.inl haTe
      · refine Or.inr ⟨b, hbe, ?_⟩
        have hbv : b.start < b.«end» := (haT b (by rw [hbe]; simp)).2
        unfold minutesBetween
        omega

/-- Closed instance of `c2_noninterruptible_single_block`: a single
non-interruptible 90-minute task, default settings, no locked blocks. -/
theorem c2_noninterruptible_single_block_witness :
    ∃ newBlocks : List PlannedBlock,
      (generatePlan
          [{ id := "t1", title := "T", estimatedMinutes := 90, priority := 3,
             interruptible := false, minBlockMinutes := 90 }]
          [] ⟨1, 540, 1080, 720, 780, 240⟩ [] 0).blocks
        = [] ++ newBlocks ∧
      (newBlocks.filter (fun b => decide (b.taskId = "t1")) = [] ∨
        ∃ b, newBlocks.filter (fun b => decide (b.taskId = "t1")) = [b] ∧
          minutesBetween b.start b.«end»
            = taskRemaining (minutesByTask [])
                { id := "t1", title := "T", estimatedMinutes := 90, priority := 3,
                  interruptible := false, minBlockMinutes := 90 }) :=
  c2_noninterruptible_single_block
    [{ id := "t1", title := "T", estimatedMinutes := 90, priority := 3,
       interruptible := false, minBlockMinutes := 90 }]
    [] ⟨1, 540, 1080, 720, 780, 240⟩ [] 0
    { id := "t1", title := "T", estimatedMinutes := 90, priority := 3,
      interruptible := false, minBlockMinutes := 90 }
    (by constructor <;> decide) (by decide) (by decide) (by decide) (by decide)

/-- C6: for a task with positive remaining minutes, the run carries a
`DEADLINE_ALREADY_PASSED` warning for the task if and only if the task has a
deadline strictly before its effective earliest start (the later of
`earliestStart`-or-`now` and the latest end of already-placed dependency
blocks, evaluated against the blocks placed when the task's turn comes);
in that case the run emits zero new blocks for the task. -/
theorem c6_deadline_passed_warning (tasks : List Task)
    (events : List CalendarEvent) (settings : Settings)
    (lockedBlocks : List PlannedBlock) (now : Int) (t : Task)
    (hs : settingsOK settings)
    (hmins : ∀ u ∈ tasks, u.interruptible = true → 1 ≤ u.minBlockMinutes)
    (hids : (tasks.map Task.id).Nodup) (ht : t ∈ tasks)
    (hR : taskRemaining (minutesByTask lockedBlocks) t ≠ 0) :
    ∃ (s1 : AllocState) (prior newBlocks : List PlannedBlock),
      s1.blocks = lockedBlocks ++ prior ∧
      (∀ b ∈ prior, b.taskId ≠ t.id) ∧
      (generatePlan tasks events settings lockedBlocks now).blocks
        = lockedBlocks ++ newBlocks ∧
      ((∃ d, t.deadline = some d ∧ d < effectiveEarliest t s1.blocks now) ↔
        (∃ w ∈ (generatePlan tasks events settings lockedBlocks now).warnings,
          w.code = "DEADLINE_ALREADY_PASSED" ∧ w.taskId = some t.id)) ∧
      ((∃ d, t.deadline = some d ∧ d < effectiveEarliest t s1.blocks now) →
        newBlocks.filter (fun b => decide (b.taskId = t.id)) = []) := by
  obtain ⟨s1, aT, oB1, oB2, wT, oW1, oW2, hblocks, hwarns, hs1b, hB1, hB2, hW1, hW2,
    haT, hrz, hrnz⟩ := generatePlan_perTask tasks events settings lockedBlocks now t
      hs hmins hids ht
  obtain ⟨hdead, hmain⟩ := hrnz hR
  refine ⟨s1, oB1, oB1 ++ (aT ++ oB2), hs1b, hB1, hblocks, ⟨?_, ?_⟩, ?_⟩
  · intro hcond
    obtain ⟨_, hwT⟩ := hdead hcond
    refine ⟨deadlineWarning t, ?_, rfl, rfl⟩
    rw [hwarns, hwT]
    simp
  · rintro ⟨w, hw, hcode, hid⟩
    rw [hwarns] at hw
    rcases List.mem_append.mp hw with hw | hw
    · exact absurd hid (hW1 w hw)
    rcases List.mem_append.mp hw with hw | hw
    · by_cases hcond : ∃ d, t.deadline = some d ∧ d < effectiveEarliest t s1.blocks now
      · exact hcond
      · obtain ⟨rRem, _, hwT, _, _⟩ := hmain hcond
        rw [hwT] at hw
        by_cases hpos : 0 < rRem
        · rw [if_pos hpos] at hw
          rw [List.mem_singleton.mp hw] at hcode
          simp [insufficientWarning] at hcode
        · rw [if_neg hpos] at hw
          exact absurd hw (List.not_mem_nil w)
    · exact absurd hid (hW2 w hw)
  · intro hcond
    obtain ⟨haTe, _⟩ := hdead hcond
    rw [haTe]
    rw [List.filter_append, List.filter_append]
    have hf1 : oB1.filter (fun b => decide (b.taskId = t.id)) = [] := by
      rw [List.filter_eq_nil_iff]
      intro b hb
      simpa using hB1 b hb
    have hf2 : oB2.filter (fun b => decide (b.taskId = t.id)) = [] := by
      rw [List.filter_eq_nil_iff]
      intro b hb
      simpa using hB2 b hb
    rw [hf1, hf2]
    rfl

/-- Closed instance of `c6_deadline_passed_warning`: a task whose deadline lies
before `now`, so the run warns and skips it. -/
theorem c6_deadline_passed_warning_witness :
    ∃ (s1 : AllocState) (prior newBlocks : List PlannedBlock),
      s1.blocks = [] ++ prior ∧
      (∀ b ∈ prior, b.taskId ≠ "t1") ∧
      (generatePlan [⟨"t1", "T", 90, none, some (-10), none, 3, true, 30, none, none, none⟩]
          [] ⟨1, 540, 1080, 720, 780, 240⟩ [] 0).blocks
        = [] ++ newBlocks ∧
      ((∃ d, (⟨"t1", "T", 90, none, some (-10), none, 3, true, 30, none, none, none⟩ :
            Task).deadline = some d ∧
          d < effectiveEarliest
            ⟨"t1", "T", 90, none, some (-10), none, 3, true, 30, none, none, none⟩
            s1.blocks 0) ↔
        (∃ w ∈ (generatePlan
            [⟨"t1", "T", 90, none, some (-10), none, 3, true, 30, none, none, none⟩]
            [] ⟨1, 540, 1080, 720, 780, 240⟩ [] 0).warnings,
          w.code = "DEADLINE_ALREADY_PASSED" ∧ w.taskId = some "t1")) ∧
      ((∃ d, (⟨"t1", "T", 90, none, some (-10), none, 3, true, 30, none, none, none⟩ :
            Task).deadline = some d ∧
          d < effectiveEarliest
            ⟨"t1", "T", 90, none, some (-10), none, 3, true, 30, none, none, none⟩
            s1.blocks 0) →
        newBlocks.filter (fun b => decide (b.taskId = "t1")) = []) :=
  c6_deadline_passed_warning
    [⟨"t1", "T", 90, none, some (-10), none, 3, true, 30, none, none, none⟩]
    [] ⟨1, 540, 1080, 720, 780, 240⟩ [] 0
    ⟨"t1", "T", 90, none, some (-10), none, 3, true, 30, none, none, none⟩
    (by constructor <;> decide) (by decide) (by decide) (by decide) (by decide)

/-- C3 (amended): for every interruptible task, either the run skipped the task
because its deadline lay strictly before its effective earliest start (then it
emits a `DEADLINE_ALREADY_PASSED` warning, no blocks and no `INSUFFICIENT_TIME`
warning for the task), or the sum of the durations of the task's new blocks
plus the leftover reported by the task's `INSUFFICIENT_TIME` warning (zero when
no such warning exists) equals the task's remaining minutes
`max 0 (estimatedMinutes - completedMinutes - locked minutes for the task)` —
not `estimatedMinutes - completedMinutes` as the spec states. -/
theorem c3_interruptible_minutes_accounting (tasks : List Task)
    (events : List CalendarEvent) (settings : Settings)
    (lockedBlocks : List PlannedBlock) (now : Int) (t : Task)
    (hs : settingsOK settings)
    (hmins : ∀ u ∈ tasks, u.interruptible = true → 1 ≤ u.minBlockMinutes)
    (hids : (tasks.map Task.id).Nodup) (ht : t ∈ tasks)
    (hint : t.interruptible = true) :
    ∃ newBlocks : List PlannedBlock,
      (generatePlan tasks events settings lockedBlocks now).blocks
        = lockedBlocks ++ newBlocks ∧
      (((∃ w ∈ (generatePlan tasks events settings lockedBlocks now).warnings,
            w.code = "DEADLINE_ALREADY_PASSED" ∧ w.taskId = some t.id) ∧
          newBlocks.filter (fun b => decide (b.taskId = t.id)) = [] ∧
          (∀ w ∈ (generatePlan tasks events settings lockedBlocks now).warnings,
            w.code = "INSUFFICIENT_TIME" → w.taskId ≠ some t.id)) ∨
        (∃ leftover : Int, 0 ≤ leftover ∧
          sumDur (newBlocks.filter (fun b => decide (b.taskId = t.id))) + leftover
            = taskRemaining (minutesByTask lockedBlocks) t ∧
          (0 < leftover →
            insufficientWarning t leftover
              ∈ (generatePlan tasks events settings lockedBlocks now).warnings) ∧
          (∀ w ∈ (generatePlan tasks events settings lockedBlocks now).warnings,
            w.code = "INSUFFICIENT_TIME" ∧ w.taskId = some t.id →
              0 < leftover ∧ w = insufficientWarning t leftover))) := by
  obtain ⟨s1, aT, oB1, oB2, wT, oW1, oW2, hblocks, hwarns, hs1b, hB1, hB2, hW1, hW2,
    haT, hrz, hrnz⟩ := generatePlan_perTask tasks events settings lockedBlocks now t
      hs hmins hids ht
  refine ⟨oB1 ++ (aT ++ oB2), hblocks, ?_⟩
  have hf1 : oB1.filter (fun b => decide (b.taskId = t.id)) = [] := by
    rw [List.filter_eq_nil_iff]
    intro b hb
    simpa using hB1 b hb
  have hf2 : oB2.filter (fun b => decide (b.taskId = t.id)) = [] := by
    rw [List.filter_eq_nil_iff]
    intro b hb
    simpa using hB2 b hb
  have hfa : aT.filter (fun b => decide (b.taskId = t.id)) = aT := by
    rw [List.filter_eq_self]
    intro b hb
    simpa using (haT b hb).1
  have hfsplit : (oB1 ++ (aT ++ oB2)).filter (fun b => decide (b.taskId = t.id)) = aT := by
    rw [List.filter_append, List.filter_append, hf1, hf2, hfa, List.nil_append,
      List.append_nil]
  by_cases hr0 : taskRemaining (minutesByTask lockedBlocks) t = 0
  · obtain ⟨haTe, hwTe⟩ := hrz hr0
    refine Or.inr ⟨0, le_refl 0, ?_, by omega, ?_⟩
    · rw [hfsplit, haTe, sumDur_nil, hr0]
      omega
    · intro w hw hwc
      rw [hwarns, hwTe] at hw
      rcases List.mem_append.mp hw with hw | hw
      · exact absurd hwc.2 (hW1 w hw)
      rcases List.mem_append.mp hw with hw | hw
      · exact absurd hw (List.not_mem_nil w)
      · exact absurd hwc.2 (hW2 w hw)
  · obtain ⟨hdead, hmain⟩ := hrnz hr0
    by_cases hcond : ∃ d, t.deadline = some d ∧ d < effectiveEarliest t s1.blocks now
    · obtain ⟨haTe, hwT⟩ := hdead hcond
      refine Or.inl ⟨⟨deadlineWarning t, ?_, rfl, rfl⟩, by rw [hfsplit, haTe], ?_⟩
      · rw [hwarns, hwT]
        simp
      · intro w hw hwc
        rw [hwarns, hwT] at hw
        rcases List.mem_append.mp hw with hw | hw
        · exact hW1 w hw
        rcases List.mem_append.mp hw with hw | hw
        · rw [List.mem_singleton.mp hw] at hwc
          simp [deadlineWarning] at hwc
        · exact hW2 w hw
    · obtain ⟨rRem, hrpos, hwT, hrint, _⟩ := hmain hcond
      have hsum : rRem = taskRemaining (minutesByTask lockedBlocks) t - sumDur aT :=
        hrint hint
      refine Or.inr ⟨rRem, hrpos, by rw [hfsplit]; omega, ?_, ?_⟩
      · intro hpos
        rw [hwarns, hwT, if_pos hpos]
        simp
      · intro w hw hwc
        rw [hwarns, hwT] at hw
        rcases List.mem_append.mp hw with hw | hw
        · exact absurd hwc.2 (hW1 w hw)
        rcases List.mem_append.mp hw with hw | hw
        · by_cases hpos : 0 < rRem
          · rw [if_pos hpos] at hw
            exact ⟨hpos, List.mem_singleton.mp hw⟩
          · rw [if_neg hpos] at hw
            exact absurd hw (List.not_mem_nil w)
        · exact absurd hwc.2 (hW2 w hw)

/-- Closed instance of `c3_interruptible_minutes_accounting`: one interruptible
90-minute task on an empty day. -/
theorem c3_interruptible_minutes_accounting_witness :
    ∃ newBlocks : List PlannedBlock,
      (generatePlan [⟨"t1", "T", 90, none, none, none, 3, true, 30, none, none, none⟩]
          [] ⟨1, 540, 1080, 720, 780, 240⟩ [] 0).blocks
        = [] ++ newBlocks ∧
      (((∃ w ∈ (generatePlan [⟨"t1", "T", 90, none, none, none, 3, true, 30, none, none, none⟩]
            [] ⟨1, 540, 1080, 720, 780, 240⟩ [] 0).warnings,
            w.code = "DEADLINE_ALREADY_PASSED" ∧ w.taskId = some "t1") ∧
          newBlocks.filter (fun b => decide (b.taskId = "t1")) = [] ∧
          (∀ w ∈ (generatePlan [⟨"t1", "T", 90, none, none, none, 3, true, 30, none, none, none⟩]
            [] ⟨1, 540, 1080, 720, 780, 240⟩ [] 0).warnings,
            w.code = "INSUFFICIENT_TIME" → w.taskId ≠ some "t1")) ∨
        (∃ leftover : Int, 0 ≤ leftover ∧
          sumDur (newBlocks.filter (fun b => decide (b.taskId = "t1"))) + leftover
            = taskRemaining (minutesByTask [])
                ⟨"t1", "T", 90, none, none, none, 3, true, 30, none, none, none⟩ ∧
          (0 < leftover →
            insufficientWarning
              ⟨"t1", "T", 90, none, none, none, 3, true, 30, none, none, none⟩ leftover
              ∈ (generatePlan [⟨"t1", "T", 90, none, none, none, 3, true, 30, none, none, none⟩]
                  [] ⟨1, 540, 1080, 720, 780, 240⟩ [] 0).warnings) ∧
          (∀ w ∈ (generatePlan [⟨"t1", "T", 90, none, none, none, 3, true, 30, none, none, none⟩]
              [] ⟨1, 540, 1080, 720, 780, 240⟩ [] 0).warnings,
            w.code = "INSUFFICIENT_TIME" ∧ w.taskId = some "t1" →
              0 < leftover ∧ w = insufficientWarning
                ⟨"t1", "T", 90, none, none, none, 3, true, 30, none, none, none⟩
                leftover))) :=
  c3_interruptible_minutes_accounting
    [⟨"t1", "T", 90, none, none, none, 3, true, 30, none, none, none⟩]
    [] ⟨1, 540, 1080, 720, 780, 240⟩ [] 0
    ⟨"t1", "T", 90, none, none, none, 3, true, 30, none, none, none⟩
    (by constructor <;> decide) (by decide) (by decide) (by decide) (by decide)

/-- Counterexample to C3 as stated: an interruptible task whose 60 estimated
minutes are fully covered by a locked block gets no new blocks and no
`INSUFFICIENT_TIME` warning, yet `estimatedMinutes - completedMinutes = 60`,
so the sum of new-block durations plus the reported leftover (both zero) does
not equal `estimatedMinutes - completedMinutes`. -/
theorem c3_counterexample :
    (generatePlan [⟨"t1", "T", 60, none, none, none, 3, true, 30, none, none, none⟩]
        [] ⟨1, 540, 1080, 720, 780, 600⟩
        [⟨"L1", "t1", 540, 600, 1, [], some true⟩] 0).blocks
      = [⟨"L1", "t1", 540, 600, 1, [], some true⟩] ∧
    (generatePlan [⟨"t1", "T", 60, none, none, none, 3, true, 30, none, none, none⟩]
        [] ⟨1, 540, 1080, 720, 780, 600⟩
        [⟨"L1", "t1", 540, 600, 1, [], some true⟩] 0).warnings = [] ∧
    sumDur (((generatePlan [⟨"t1", "T", 60, none, none, none, 3, true, 30, none, none, none⟩]
        [] ⟨1, 540, 1080, 720, 780, 600⟩
        [⟨"L1", "t1", 540, 600, 1, [], some true⟩] 0).blocks.drop 1).filter
          (fun b => decide (b.taskId = "t1"))) + 0
      ≠ (⟨"t1", "T", 60, none, none, none, 3, true, 30, none, none, none⟩ :
          Task).estimatedMinutes
        - ((⟨"t1", "T", 60, none, none, none, 3, true, 30, none, none, none⟩ :
          Task).completedMinutes.getD 0) := by
  refine ⟨by decide, by decide, by decide⟩

/-- C10 (amended): when the allocator visits a free slot for a task that still
has minutes to place, two cases arise. If the clipped interval
`[clipStart, clipEnd)` is nonempty, the visited slot is permanently replaced by
at most one remainder interval lying inside the clipped interval, so the slot's
free time before the task's effective earliest start and after its deadline is
dropped from the working set — even when no block was placed, in which case the
remainder is exactly the clipped interval. If however the clipped interval is
empty (the whole slot lies before the earliest start or after the deadline),
the slot is kept unchanged and stays available to later tasks, contrary to the
claim's "is removed from the working set". -/
theorem c10_slot_clipping (task : Task) (minBlock maxBlock maxDaily earliest : Int)
    (deadline : Option Int) (k : Int) (slot : Interval) (rest : List Interval)
    (remaining : Int) (firstBlock : Bool) (blocks : List PlannedBlock)
    (dailyTotals : Int → Int) (hmin : 1 ≤ minBlock) (hrem : 0 < remaining) :
    (clipEnd deadline slot ≤ clipStart earliest slot →
      (processSlots task minBlock maxBlock maxDaily earliest deadline k
          (slot :: rest) remaining firstBlock blocks dailyTotals).slots
        = slot :: (processSlots task minBlock maxBlock maxDaily earliest deadline k
            rest remaining firstBlock blocks dailyTotals).slots) ∧
    (clipStart earliest slot < clipEnd deadline slot →
      ∃ (remaining' : Int) (firstBlock' : Bool) (blocks' : List PlannedBlock)
        (dailyTotals' : Int → Int) (keep : List Interval) (added : List PlannedBlock),
        (processSlots task minBlock maxBlock maxDaily earliest deadline k
            (slot :: rest) remaining firstBlock blocks dailyTotals).slots
          = keep ++ (processSlots task minBlock maxBlock maxDaily earliest deadline k
              rest remaining' firstBlock' blocks' dailyTotals').slots ∧
        keep.length ≤ 1 ∧
        (∀ iv ∈ keep, clipStart earliest slot ≤ iv.start ∧
          iv.«end» ≤ clipEnd deadline slot) ∧
        blocks' = blocks ++ added ∧
        (added = [] →
          keep = [⟨clipStart earliest slot, clipEnd deadline slot⟩])) := by
  have hnr : ¬ remaining ≤ 0 := by omega
  constructor
  · intro hle
    simp only [processSlots]
    rw [if_neg hnr, if_pos hle]
  · intro hlt
    have hclip : ¬ clipEnd deadline slot ≤ clipStart earliest slot := not_le.mpr hlt
    obtain ⟨placedF, specF⟩ := fillSlot_spec task minBlock maxBlock maxDaily k
      (clipEnd deadline slot) hmin (remaining.toNat + 1)
      ⟨clipStart earliest slot, remaining, firstBlock, blocks, dailyTotals⟩ (le_of_lt hlt)
    set F := fillSlot task minBlock maxBlock maxDaily k (clipEnd deadline slot)
      (remaining.toNat + 1)
      ⟨clipStart earliest slot, remaining, firstBlock, blocks, dailyTotals⟩ with hF
    refine ⟨F.remaining, F.firstBlock, F.blocks, F.dailyTotals, ?_⟩
    by_cases hdone : clipEnd deadline slot ≤ F.slotStart
    · refine ⟨[], placedF, ?_, by simp, by simp, specF.blocksEq, ?_⟩
      · simp only [processSlots]
        rw [if_neg hnr, if_neg hclip, ← hF, if_pos hdone]
        rw [List.nil_append]
      · intro hpe
        have hFst := specF.noPlaced hpe
        rw [hFst] at hdone
        exact absurd hdone hclip
    · refine ⟨[⟨F.slotStart, clipEnd deadline slot⟩], placedF, ?_, by simp, ?_,
        specF.blocksEq, ?_⟩
      · simp only [processSlots]
        rw [if_neg hnr, if_neg hclip, ← hF, if_neg hdone]
        rfl
      · intro iv hiv
        rw [List.mem_singleton.mp hiv]
        exact ⟨specF.startMono, le_refl _⟩
      · intro hpe
        have hFst := specF.noPlaced hpe
        rw [hFst]

/-- Closed instance of `c10_slot_clipping`: a 120-minute interruptible task
with deadline 600 visiting the slot `[540, 720)`. -/
theorem c10_slot_clipping_witness :
    (clipEnd (some 600) ⟨540, 720⟩ ≤ clipStart 540 ⟨540, 720⟩ →
      (processSlots ⟨"t1", "T", 120, none, some 600, none, 3, true, 30, none, none, none⟩
          30 120 600 540 (some 600) 0
          (⟨540, 720⟩ :: [⟨780, 1080⟩]) 120 true [] (fun _ => 0)).slots
        = ⟨540, 720⟩ ::
          (processSlots ⟨"t1", "T", 120, none, some 600, none, 3, true, 30, none, none, none⟩
            30 120 600 540 (some 600) 0
            [⟨780, 1080⟩] 120 true [] (fun _ => 0)).slots) ∧
    (clipStart 540 ⟨540, 720⟩ < clipEnd (some 600) ⟨540, 720⟩ →
      ∃ (remaining' : Int) (firstBlock' : Bool) (blocks' : List PlannedBlock)
        (dailyTotals' : Int → Int) (keep : List Interval) (added : List PlannedBlock),
        (processSlots ⟨"t1", "T", 120, none, some 600, none, 3, true, 30, none, none, none⟩
            30 120 600 540 (some 600) 0
            (⟨540, 720⟩ :: [⟨780, 1080⟩]) 120 true [] (fun _ => 0)).slots
          = keep ++
            (processSlots ⟨"t1", "T", 120, none, some 600, none, 3, true, 30, none, none, none⟩
              30 120 600 540 (some 600) 0
              [⟨780, 1080⟩] remaining' firstBlock' blocks' dailyTotals').slots ∧
        keep.length ≤ 1 ∧
        (∀ iv ∈ keep, clipStart 540 ⟨540, 720⟩ ≤ iv.start ∧
          iv.«end» ≤ clipEnd (some 600) ⟨540, 720⟩) ∧
        blocks' = [] ++ added ∧
        (added = [] →
          keep = [⟨clipStart 540 ⟨540, 720⟩, clipEnd (some 600) ⟨540, 720⟩⟩])) :=
  c10_slot_clipping ⟨"t1", "T", 120, none, some 600, none, 3, true, 30, none, none, none⟩
    30 120 600 540 (some 600) 0 ⟨540, 720⟩ [⟨780, 1080⟩] 120 true [] (fun _ => 0)
    (by decide) (by decide)

/-- Counterexample to C10 as stated: task "t1" (deadline 600, 60 minutes left
unscheduled) visits the afternoon slot `[780, 1080)`, whose clipped remainder
under the deadline is empty; the slot is not removed from the working set, and
the later task "t2" is scheduled into exactly that free time. -/
theorem c10_counterexample :
    (((generatePlan
        [⟨"t1", "A", 120, none, some 600, none, 3, true, 30, none, none, none⟩,
         ⟨"t2", "B", 300, none, none, none, 3, true, 30, none, none, none⟩]
        [] ⟨1, 540, 1080, 720, 780, 600⟩ [] 540).blocks.filter
          (fun b => decide (b.taskId = "t2"))).map (fun b => (b.start, b.«end»)))
      = [(780, 1080)] ∧
    insufficientWarning
        ⟨"t1", "A", 120, none, some 600, none, 3, true, 30, none, none, none⟩ 60
      ∈ (generatePlan
        [⟨"t1", "A", 120, none, some 600, none, 3, true, 30, none, none, none⟩,
         ⟨"t2", "B", 300, none, none, none, 3, true, 30, none, none, none⟩]
        [] ⟨1, 540, 1080, 720, 780, 600⟩ [] 540).warnings := by
  refine ⟨by decide, by decide⟩

end Cland
